import Mathlib

/-!
Verification of the gomatch pattern-aware JSON comparison engine.

The repository decodes JSON texts into Go dynamic values (`interface{}`)
and walks them with three traversal engines:

* `JSONMatcher.deepMatch` / `deepMatchArray` / `deepMatchMap` / `matchValue`
  (structural matcher, aggregating path-annotated errors),
* `JSONDiff.diffValues` / `diffObjects` / `diffArrays` / `valuesEqual`
  (flat diff records),
* `GoldenJSONSync.deepMatch` / `deepMatchArray` / `deepMatchMap` /
  `matchValue` / `Sync` (golden-tree reconciliation).

This file gives a shallow embedding of those functions and of the leaf
`ValueMatcher` abstraction, and proves or refutes the frozen claims about
them.  Go `interface{}` trees decoded from JSON are modelled by the
inductive type `J`; the Go `nil` interface (JSON `null`, and the `nil`
value handed to a matcher for an absent key) is `J.null`.  Go maps are
modelled as association lists in some iteration order; Go guarantees no
duplicate keys for decoded JSON, which is the `wfB` predicate below.
Go numbers are float64; only equality of numbers is exercised by the
claims, so they are modelled as exact rationals.
-/

set_option linter.unusedVariables false

/-- The dynamic value tree both JSON texts decode into (Go `interface{}`
holding `nil`, `bool`, `float64`, `string`, `[]interface{}` or
`map[string]interface{}`). -/
inductive J where
  | null
  | bool (b : Bool)
  | num (q : ℚ)
  | str (s : String)
  | arr (els : List J)
  | obj (fields : List (String × J))

mutual
/-- Boolean structural equality on trees: the Go `==` on `interface{}`
values (extended to arrays/objects, which the engine only ever compares
elementwise). -/
def jeq : J → J → Bool
  | .null, .null => true
  | .bool b, .bool c => b == c
  | .num q, .num r => q == r
  | .str s, .str t => s == t
  | .arr es, .arr fs => jeqArr es fs
  | .obj fs, .obj gs => jeqObj fs gs
  | _, _ => false
/-- Elementwise equality of array contents. -/
def jeqArr : List J → List J → Bool
  | [], [] => true
  | e :: es, f :: fs => jeq e f && jeqArr es fs
  | _, _ => false
/-- Fieldwise equality of object contents. -/
def jeqObj : List (String × J) → List (String × J) → Bool
  | [], [] => true
  | (k, v) :: fs, (l, w) :: gs => k == l && jeq v w && jeqObj fs gs
  | _, _ => false
end

mutual
theorem jeq_iff : ∀ a b : J, jeq a b = true ↔ a = b
  | .null, b => by cases b <;> simp [jeq]
  | .bool x, b => by cases b <;> simp [jeq]
  | .num x, b => by cases b <;> simp [jeq]
  | .str x, b => by cases b <;> simp [jeq]
  | .arr es, b => by
      cases b <;> simp [jeq]
      exact jeqArr_iff es _
  | .obj fs, b => by
      cases b <;> simp [jeq]
      exact jeqObj_iff fs _
theorem jeqArr_iff : ∀ es fs : List J, jeqArr es fs = true ↔ es = fs
  | [], fs => by cases fs <;> simp [jeqArr]
  | e :: es, fs => by
      cases fs with
      | nil => simp [jeqArr]
      | cons f fs => simp [jeqArr, jeq_iff e f, jeqArr_iff es fs]
theorem jeqObj_iff : ∀ fs gs : List (String × J), jeqObj fs gs = true ↔ fs = gs
  | [], gs => by cases gs <;> simp [jeqObj]
  | (k, v) :: fs, gs => by
      cases gs with
      | nil => simp [jeqObj]
      | cons g gs =>
          obtain ⟨l, w⟩ := g
          simp [jeqObj, jeq_iff v w, jeqObj_iff fs gs, and_assoc]
end

instance : DecidableEq J := fun a b => decidable_of_iff (jeq a b = true) (jeq_iff a b)

/-- The dynamic type of a tree value, as compared by `reflect.TypeOf` in
the Go sources (`reflect.TypeOf(nil)` is `nil`, modelled by `tnull`). -/
inductive JType where
  | tnull | tbool | tnum | tstr | tarr | tobj
deriving DecidableEq

/-- `reflect.TypeOf` on a decoded value. -/
def typeOf : J → JType
  | .null => .tnull
  | .bool _ => .tbool
  | .num _ => .tnum
  | .str _ => .tstr
  | .arr _ => .tarr
  | .obj _ => .tobj

/-- One segment of an error path: an object key or an array index
(the `[]interface{}` path of the Go sources holds strings and ints). -/
inductive Seg where
  | key (s : String)
  | idx (n : Nat)
deriving DecidableEq

/-- `pathToString` from `errors.go`: starts with `"."`, renders an index
as `[i]`, and joins keys with `"."` (no dot right after the leading one). -/
def pathToString (path : List Seg) : String :=
  path.foldl
    (fun b s =>
      match s with
      | .idx n => b ++ "[" ++ toString n ++ "]"
      | .key k => (if b.length > 1 then b ++ "." else b) ++ k)
    "."

/-- Go map lookup `actual[k]` on the association-list model: the value of
the first entry with key `k` (unique when the keys are `wfB`-nodup). -/
def mapGet : List (String × J) → String → Option J
  | [], _ => none
  | (l, w) :: fs, k => if l = k then some w else mapGet fs k

/-- Go map membership `_, ok := m[k]`. -/
def mapHas (fs : List (String × J)) (k : String) : Bool :=
  (mapGet fs k).isSome

/-- Go map assignment `m[k] = v`: replaces the value in place if the key
is present (a Go map keeps the entry's identity), else adds the entry. -/
def mapSet : List (String × J) → String → J → List (String × J)
  | [], k, v => [(k, v)]
  | (l, w) :: fs, k, v => if l = k then (l, v) :: fs else (l, w) :: mapSet fs k v

/-- `isPattern` from the matcher source: `p` is the string `pattern`. -/
def isPatternB (p : J) (pattern : String) : Bool :=
  match p with
  | .str s => s == pattern
  | _ => false

/-- The `"@...@"` unbounded sentinel token. -/
def patternUnbounded : String := "@...@"

/-- `isUnbounded` from the matcher source. -/
def isUnbounded (p : J) : Bool := isPatternB p patternUnbounded

/-! ## Leaf value matchers

`ValueMatcher` is the Go interface: `CanMatch(p) bool` and
`Match(p, v) (bool, error)`.  The returned error is one of the dedicated
matcher errors, modelled by `MErr` (`none` = nil error).  The matchers
whose Go source is in the repository (String, Array, Empty, Date) are
translated from it; the ones whose source is absent (Number, Bool,
UUID, Email, Wildcard, Chain) are modelled from the spec and marked so.
The external validity predicates used by the Date/UUID/Email matchers
(`time.Parse`, UUID and email syntax) are out-of-scope collaborators and
are taken as parameters; no claim exercises them. -/

/-- A matcher-specific error (`ErrNotString`, `errNotNumber`, ... plus the
chain's "no matcher configured" failure). -/
inductive MErr where
  | notString | notNumber | notBool | notArray | notUUID | notEmail
  | notDate | notEmpty | noMatcherConfigured
deriving DecidableEq

/-- The Go `ValueMatcher` interface. -/
structure ValueMatcher where
  CanMatch : J → Bool
  Match : J → J → Bool × Option MErr

/-- `StringMatcher` (source): matches when the value is a string. -/
def StringMatcher (pattern : String) : ValueMatcher where
  CanMatch p := isPatternB p pattern
  Match _ v :=
    match v with
    | .str _ => (true, none)
    | _ => (false, some .notString)

/-- `ArrayMatcher` (source): matches when the value is an array. -/
def ArrayMatcher (pattern : String) : ValueMatcher where
  CanMatch p := isPatternB p pattern
  Match _ v :=
    match v with
    | .arr _ => (true, none)
    | _ => (false, some .notArray)

/-- `EmptyMatcher` (source): matches nil, the empty string, an empty map
or an empty array. -/
def EmptyMatcher (pattern : String) : ValueMatcher where
  CanMatch p := isPatternB p pattern
  Match _ v :=
    match v with
    | .null => (true, none)
    | .str "" => (true, none)
    | .obj [] => (true, none)
    | .arr [] => (true, none)
    | _ => (false, some .notEmpty)

/-- `DateMatcher` (source): the value must be a string accepted by the
RFC 3339 parser, here the parameter `dateOk`. -/
def DateMatcher (dateOk : String → Bool) (pattern : String) : ValueMatcher where
  CanMatch p := isPatternB p pattern
  Match _ v :=
    match v with
    | .str s => if dateOk s then (true, none) else (false, some .notDate)
    | _ => (false, some .notDate)

/-- Modelled from the spec: `NumberMatcher` (its Go source is not under
src/, only its tests and registration) accepts exactly the number
values, failing with its NotNumber error otherwise. -/
def NumberMatcher (pattern : String) : ValueMatcher where
  CanMatch p := isPatternB p pattern
  Match _ v :=
    match v with
    | .num _ => (true, none)
    | _ => (false, some .notNumber)

/-- Modelled from the spec: `BoolMatcher` (source not under src/)
accepts exactly the boolean values. -/
def BoolMatcher (pattern : String) : ValueMatcher where
  CanMatch p := isPatternB p pattern
  Match _ v :=
    match v with
    | .bool _ => (true, none)
    | _ => (false, some .notBool)

/-- Modelled from the spec: `UUIDMatcher` (source not under src/)
accepts strings passing the UUID syntax check `uuidOk`. -/
def UUIDMatcher (uuidOk : String → Bool) (pattern : String) : ValueMatcher where
  CanMatch p := isPatternB p pattern
  Match _ v :=
    match v with
    | .str s => if uuidOk s then (true, none) else (false, some .notUUID)
    | _ => (false, some .notUUID)

/-- Modelled from the spec: `EmailMatcher` (source not under src/)
accepts strings passing the email syntax check `emailOk`. -/
def EmailMatcher (emailOk : String → Bool) (pattern : String) : ValueMatcher where
  CanMatch p := isPatternB p pattern
  Match _ v :=
    match v with
    | .str s => if emailOk s then (true, none) else (false, some .notEmail)
    | _ => (false, some .notEmail)

/-- Modelled from the spec: `WildcardMatcher` (source not under src/)
accepts any value. -/
def WildcardMatcher (pattern : String) : ValueMatcher where
  CanMatch p := isPatternB p pattern
  Match _ _ := (true, none)

/-- Modelled from the spec: `ChainMatcher` (source not under src/).
`CanMatch` holds iff some member's does; `Match` delegates to the first
member (registration order) whose `CanMatch` holds, and is a no-op
failure when none does. -/
def ChainMatcher (ms : List ValueMatcher) : ValueMatcher where
  CanMatch p := ms.any fun m => m.CanMatch p
  Match p v :=
    match ms.find? fun m => m.CanMatch p with
    | some m => m.Match p v
    | none => (false, some .noMatcherConfigured)

/-- The default chain built by `NewDefaultJSONMatcher` /
`NewGoldenJSONSync`: one matcher per built-in token, in registration
order, ending with the wildcard. -/
def defaultChain (dateOk uuidOk emailOk : String → Bool) : ValueMatcher :=
  ChainMatcher
    [ StringMatcher "@string@"
    , NumberMatcher "@number@"
    , BoolMatcher "@bool@"
    , ArrayMatcher "@array@"
    , UUIDMatcher uuidOk "@uuid@"
    , EmailMatcher emailOk "@email@"
    , DateMatcher dateOk "@date@"
    , EmptyMatcher "@empty@"
    , WildcardMatcher "@wildcard@"
    ]

/-- `CanMatch` of the default chain, written out: membership of the
nine built-in tokens.  It does not depend on the external validators. -/
def defaultCanMatch (p : J) : Bool :=
  match p with
  | .str s =>
      s == "@string@" || s == "@number@" || s == "@bool@" || s == "@array@" ||
      s == "@uuid@" || s == "@email@" || s == "@date@" || s == "@empty@" ||
      s == "@wildcard@"
  | _ => false

theorem defaultChain_CanMatch (dateOk uuidOk emailOk : String → Bool) (p : J) :
    (defaultChain dateOk uuidOk emailOk).CanMatch p = defaultCanMatch p := by
  cases p <;>
    simp [defaultChain, ChainMatcher, defaultCanMatch, StringMatcher, NumberMatcher,
      BoolMatcher, ArrayMatcher, UUIDMatcher, EmailMatcher, DateMatcher, EmptyMatcher,
      WildcardMatcher, isPatternB, Bool.or_assoc]

/-! ## The structural matcher (`JSONMatcher`)

`deepMatch(expected, actual, path)` aggregates path-annotated error
records.  Go maps are reference values and `deepMatchMap` assigns
`actual[k] = nil` for an absent key whose pattern matcher accepts nil,
so the traversal can mutate the actual tree; the embedding makes that
explicit by returning the (possibly updated) actual tree alongside the
errors.  `errors.Join` of the per-node errors is modelled by the flat
list of the leaf error records, each of which carries the absolute path
it was created with (`NewErrGomatch(err, path, expected, actual, key)`).
The record payloads hold the values at creation time; Go stores
references there, whose later in-place mutation is not replayed into
already-created records (no claim reads the payloads of records whose
subtrees are mutated afterwards). -/

/-- The kind of a wrapped error: the structural sentinel errors of
`json_matcher.go` or a matcher-specific error. -/
inductive EKind where
  | typesNotEqual | valuesNotEqual | arraysLenNotEqual
  | missingKey | unexpectedKey
  | matcherFail (e : MErr)
deriving DecidableEq

/-- An `ErrGomatch` record: wrapped kind, path, expected and provided
values (`J.null` for Go nil), and the offending key when any. -/
structure ErrRec where
  kind : EKind
  path : List Seg
  expected : J
  actual : J
  key : String
deriving DecidableEq

namespace JSONMatcher

/-- `matchValue` (source): delegate to the matcher when the expected
value is a recognized pattern — the outcome is decided by the returned
error alone — else require plain equality. -/
def matchValue (m : ValueMatcher) (expected actual : J) (path : List Seg) : List ErrRec :=
  if m.CanMatch expected then
    match (m.Match expected actual).2 with
    | some e => [⟨.matcherFail e, path, expected, actual, ""⟩]
    | none => []
  else if expected = actual then []
  else [⟨.valuesNotEqual, path, expected, actual, ""⟩]

/-- The second loop of `deepMatchMap` (source): one `UnexpectedKey`
record, at the enclosing path, for every actual key absent from
expected, in actual-iteration order. -/
def unexpectedKeyErrs (expected actualFields : List (String × J)) (path : List Seg) :
    List ErrRec :=
  (actualFields.filter fun kv => ¬ mapHas expected kv.1).map fun kv =>
    ⟨.unexpectedKey, path, .null, kv.2, kv.1⟩

mutual

/-- `deepMatch` (source).  Returns the collected errors and the actual
tree as left by the traversal (Go mutates it through map references).
When the expected value is an array or object but the actual is not and
the matcher claims the expected value, the Go type assertion would
panic; that branch is unreachable for every matcher of the repository
(their `CanMatch` holds only of strings) and is modelled as returning
the actual value with no errors. -/
def deepMatch (m : ValueMatcher) : J → J → List Seg → List ErrRec × J
  | expected, actual, path =>
    if typeOf expected ≠ typeOf actual ∧ ¬ m.CanMatch expected then
      ([⟨.typesNotEqual, path, expected, actual, ""⟩], actual)
    else
      match expected, actual with
      | .arr es, .arr as =>
          let r := deepMatchArray m es as path 0
          let errs :=
            if ¬ r.2.2 ∧ es.length ≠ as.length then
              r.1 ++ [⟨.arraysLenNotEqual, path, .arr es, .arr as, ""⟩]
            else r.1
          (errs, .arr r.2.1)
      | .obj fs, .obj gs =>
          let r := deepMatchMap m fs gs path
          let errs := if r.2.2 then r.1 else r.1 ++ unexpectedKeyErrs fs r.2.1 path
          (errs, .obj r.2.1)
      | .arr _, _ => ([], actual)
      | .obj _, _ => ([], actual)
      | _, _ => (matchValue m expected actual path, actual)

/-- The element loop of `deepMatchArray` (source), walking expected and
actual in index lockstep: an unbounded token stops the loop (checked
before the actual-exhausted break), actual running out stops it, and
aligned pairs recurse at path `path ++ [i]`.  Returns the collected
errors, the updated actual elements, and whether the unbounded token
was reached. -/
def deepMatchArray (m : ValueMatcher) :
    List J → List J → List Seg → Nat → List ErrRec × List J × Bool
  | [], as, _, _ => ([], as, false)
  | v :: es, as, path, i =>
    if isUnbounded v then ([], as, true)
    else
      match as with
      | [] => ([], [], false)
      | a :: as2 =>
          let r1 := deepMatch m v a (path ++ [.idx i])
          let r2 := deepMatchArray m es as2 path (i + 1)
          (r1.1 ++ r2.1, r1.2 :: r2.2.1, r2.2.2)

/-- The expected-keys loop of `deepMatchMap` (source), threading the
actual map through the Go map assignments: an unbounded key marks the
object unbounded and is skipped; a key present in actual recurses at
`path ++ [k]`; a key absent from actual is queried against the matcher
with a nil value when its expected value is a recognized pattern — a
nil-accepting matcher leads to the assignment `actual[k] = nil`, a
rejecting one to that matcher's own error at `path ++ [k]` — and
otherwise yields a `MissingKey` record at the enclosing path. -/
def deepMatchMap (m : ValueMatcher) :
    List (String × J) → List (String × J) → List Seg →
      List ErrRec × List (String × J) × Bool
  | [], actual, _ => ([], actual, false)
  | (k, v1) :: fs, actual, path =>
    if k == patternUnbounded then
      let r := deepMatchMap m fs actual path
      (r.1, r.2.1, true)
    else
      match mapGet actual k with
      | none =>
          if m.CanMatch v1 then
            match (m.Match v1 .null).2 with
            | some e =>
                let r := deepMatchMap m fs actual path
                (⟨.matcherFail e, path ++ [.key k], v1, .null, k⟩ :: r.1, r.2.1, r.2.2)
            | none =>
                let r := deepMatchMap m fs (mapSet actual k .null) path
                (r.1, r.2.1, r.2.2)
          else
            let r := deepMatchMap m fs actual path
            (⟨.missingKey, path, v1, .null, k⟩ :: r.1, r.2.1, r.2.2)
      | some v2 =>
          let r1 := deepMatch m v1 v2 (path ++ [.key k])
          let r := deepMatchMap m fs (mapSet actual k r1.2) path
          (r1.1 ++ r.1, r.2.1, r.2.2)

end

end JSONMatcher

/-! ## The golden reconciler (`GoldenJSONSync`)

`deepMatch(golden, actual)` builds a new tree: the golden side's pattern
leaves and unbounded markers win, the actual side's concrete values win
everywhere else.  `Sync` wraps it between an injectable JSON decode
(external collaborator, taken as the `parse` parameter; `none` models a
decode failure) and an injectable marshal callback (`marshaler`
parameter; `none` models a marshal failure). -/

namespace GoldenJSONSync

/-- `matchValue` (source): a recognized pattern leaf keeps the golden
token, anything else adopts the actual value. -/
def matchValue (m : ValueMatcher) (golden actual : J) : J :=
  if m.CanMatch golden then golden else actual

mutual

/-- `deepMatch` (source).  When golden is an array or object, the actual
value is not, and the matcher claims golden, the Go type assertion would
panic; as for the matcher engine that branch is unreachable for the
repository's matchers and is modelled as returning the actual value. -/
def deepMatch (m : ValueMatcher) : J → J → J
  | golden, actual =>
    if typeOf golden ≠ typeOf actual ∧ ¬ m.CanMatch golden then actual
    else
      match golden, actual with
      | .arr gs, .arr as => .arr (deepMatchArray m gs as)
      | .obj fs, .obj gs =>
          let r := deepMatchMap m fs gs
          .obj (if r.2 then r.1 else r.1 ++ gs.filter fun kv => ¬ mapHas fs kv.1)
      | .arr _, _ => actual
      | .obj _, _ => actual
      | _, _ => matchValue m golden actual

/-- The element loop of `deepMatchArray` (source): an unbounded golden
element is kept as the final result element and stops the loop (checked
before the actual-exhausted break); when golden runs out first the
remaining actual elements are appended verbatim; when actual runs out
first the remaining golden elements are dropped. -/
def deepMatchArray (m : ValueMatcher) : List J → List J → List J
  | [], as => as
  | g :: gs, as =>
    if isUnbounded g then [g]
    else
      match as with
      | [] => []
      | a :: as2 => deepMatch m g a :: deepMatchArray m gs as2

/-- The golden-keys loop of `deepMatchMap` (source), returning the
accumulated result fields and the unbounded flag: an unbounded golden
key is preserved with a nil placeholder and marks the object unbounded;
a golden key present in actual recurses; a golden key absent from
actual is dropped.  The second loop of the source — unless unbounded,
every actual key absent from golden is copied verbatim — is applied by
`deepMatch` above. -/
def deepMatchMap (m : ValueMatcher) :
    List (String × J) → List (String × J) → List (String × J) × Bool
  | [], _ => ([], false)
  | (k, goldenVal) :: fs, actual =>
    if k == patternUnbounded then
      let r := deepMatchMap m fs actual
      ((k, .null) :: r.1, true)
    else
      match mapGet actual k with
      | some actualVal =>
          let r := deepMatchMap m fs actual
          ((k, deepMatch m goldenVal actualVal) :: r.1, r.2)
      | none => deepMatchMap m fs actual

end

/-- A `Sync` failure: the fatal decode error on the actual text
(`errInvalidJSON`) or the injected marshaler's own error. -/
inductive SyncErr where
  | invalidJSON | marshalFail
deriving DecidableEq

/-- `Sync` (source): an unparsable golden text returns the actual text
with no error; an unparsable actual text returns the golden text with
the decode error; a marshal failure returns the golden text with the
marshaler's error; otherwise the merged tree is marshalled. -/
def Sync (parse : String → Option J) (marshaler : J → Option String)
    (m : ValueMatcher) (goldenJSON newJSON : String) : String × Option SyncErr :=
  match parse goldenJSON with
  | none => (newJSON, none)
  | some golden =>
    match parse newJSON with
    | none => (goldenJSON, some .invalidJSON)
    | some actual =>
      match marshaler (deepMatch m golden actual) with
      | none => (goldenJSON, some .marshalFail)
      | some out => (out, none)

end GoldenJSONSync

/-! ## The structural differ (`JSONDiff`) -/

/-- The `DiffType` of `diff_matcher.go`. -/
inductive DiffType where
  | valueMismatch | typeMismatch | missingKey | unexpectedKey | arrayLengthMismatch
deriving DecidableEq

/-- A Go `interface{}` payload of a `DiffResult`: a tree value (nil is
`J.null`) or the `int` length stored by the array-length record. -/
inductive GoVal where
  | j (v : J)
  | int (n : Nat)
deriving DecidableEq

/-- A `DiffResult` record: textual path, expected and actual payloads,
and the kind of difference (the Go field `Type`, a reserved word here). -/
structure DiffResult where
  Path : String
  Expected : GoVal
  Actual : GoVal
  dtype : DiffType
deriving DecidableEq

namespace JSONDiff

/-- `joinPath` (source). -/
def joinPath (base key : String) : String :=
  if base = "" then key else base ++ "." ++ key

/-- `valuesEqual` (source): a recognized pattern delegates to the
matcher and uses the returned boolean; otherwise plain equality. -/
def valuesEqual (m : ValueMatcher) (expected actual : J) : Bool :=
  if m.CanMatch expected then (m.Match expected actual).1
  else expected = actual

/-- The unexpected-keys loop of `diffObjects` (source). -/
def unexpectedKeyDiffs (expected actualFields : List (String × J)) (path : String) :
    List DiffResult :=
  (actualFields.filter fun kv => ¬ mapHas expected kv.1).map fun kv =>
    ⟨joinPath path kv.1, .j .null, .j kv.2, .unexpectedKey⟩

mutual

/-- `diffValues` (source): dispatch on the expected value's dynamic
type; a nil expected value takes the scalar branch (the Go type switch
matches neither the map nor the slice case for nil). -/
def diffValues (m : ValueMatcher) : J → J → String → List DiffResult
  | .obj fs, actual, path =>
      (match actual with
       | .obj gs => diffObjExp m fs gs path ++ unexpectedKeyDiffs fs gs path
       | _ => [⟨path, .j (.obj fs), .j actual, .typeMismatch⟩])
  | .arr es, actual, path =>
      (match actual with
       | .arr as =>
          (if es.length ≠ as.length then
            [⟨path, .int es.length, .int as.length, .arrayLengthMismatch⟩]
          else []) ++ diffArrPairs m es as path 0
       | _ => [⟨path, .j (.arr es), .j actual, .typeMismatch⟩])
  | expected, actual, path =>
      if valuesEqual m expected actual then []
      else [⟨path, .j expected, .j actual, .valueMismatch⟩]

/-- The expected-keys loop of `diffObjects` (source): a missing key
yields one record at `joinPath path k`, a present key recurses there. -/
def diffObjExp (m : ValueMatcher) :
    List (String × J) → List (String × J) → String → List DiffResult
  | [], _, _ => []
  | (k, ev) :: fs, gs, path =>
      (match mapGet gs k with
       | none => [⟨joinPath path k, .j ev, .j .null, .missingKey⟩]
       | some av => diffValues m ev av (joinPath path k)) ++ diffObjExp m fs gs path

/-- The index loop of `diffArrays` (source): recurse into the aligned
pairs of the overlapping prefix at path `path[i]`. -/
def diffArrPairs (m : ValueMatcher) : List J → List J → String → Nat → List DiffResult
  | e :: es, a :: as, path, i =>
      diffValues m e a (path ++ "[" ++ toString i ++ "]") ++ diffArrPairs m es as path (i + 1)
  | _, _, _, _ => []

end

end JSONDiff

/-! ## Well-formedness and token predicates used by the claims -/

/-- Keys of an association list are pairwise distinct (a decoded Go map
cannot hold a duplicate key). -/
def keysNodupB : List (String × J) → Bool
  | [] => true
  | (k, _) :: fs => !mapHas fs k && keysNodupB fs

mutual
/-- A valid decoded tree: every object's keys are distinct, recursively
(valid JSON cannot produce a duplicate key in a Go map). -/
def wfB : J → Bool
  | .null => true
  | .bool _ => true
  | .num _ => true
  | .str _ => true
  | .arr es => wfArrB es
  | .obj fs => keysNodupB fs && wfObjB fs
def wfArrB : List J → Bool
  | [] => true
  | e :: es => wfB e && wfArrB es
def wfObjB : List (String × J) → Bool
  | [] => true
  | (_, v) :: fs => wfB v && wfObjB fs
end

mutual
/-- The tree contains no occurrence of the unbounded token `"@...@"`,
neither as a string leaf (hence neither as an array element) nor as an
object key. -/
def noUnbB : J → Bool
  | .null => true
  | .bool _ => true
  | .num _ => true
  | .str s => !(s == patternUnbounded)
  | .arr es => noUnbArrB es
  | .obj fs => noUnbObjB fs
def noUnbArrB : List J → Bool
  | [] => true
  | e :: es => noUnbB e && noUnbArrB es
def noUnbObjB : List (String × J) → Bool
  | [] => true
  | (k, v) :: fs => !(k == patternUnbounded) && noUnbB v && noUnbObjB fs
end

mutual
/-- The tree contains no string leaf, in value position, that the
default chain recognizes as a pattern (object keys are never consulted
as patterns by the matcher). -/
def noPatB : J → Bool
  | .null => true
  | .bool _ => true
  | .num _ => true
  | .str s => !defaultCanMatch (.str s)
  | .arr es => noPatArrB es
  | .obj fs => noPatObjB fs
def noPatArrB : List J → Bool
  | [] => true
  | e :: es => noPatB e && noPatArrB es
def noPatObjB : List (String × J) → Bool
  | [] => true
  | (_, v) :: fs => noPatB v && noPatObjB fs
end

mutual
/-- `onlyNullIns a b`: `b` is `a` with, possibly, null-valued fields
appended to some of its objects (the only mutation the structural
matcher can apply to the actual tree, from `actual[k] = nil`). -/
def onlyNullIns : J → J → Bool
  | .arr xs, .arr ys => onlyNullInsArr xs ys
  | .obj fs, .obj gs => onlyNullInsObj fs gs
  | x, y => jeq x y
def onlyNullInsArr : List J → List J → Bool
  | [], [] => true
  | x :: xs, y :: ys => onlyNullIns x y && onlyNullInsArr xs ys
  | _, _ => false
def onlyNullInsObj : List (String × J) → List (String × J) → Bool
  | [], gs => gs.all fun kv => jeq kv.2 .null
  | _ :: _, [] => false
  | (k, v) :: fs, (l, w) :: gs => k == l && onlyNullIns v w && onlyNullInsObj fs gs
end

/-- A validator that rejects everything, used to instantiate the
external date/uuid/email checks in concrete evaluations (no claim
exercises them). -/
def noValidator : String → Bool := fun _ => false

/-- The default chain with the external validators instantiated, for
concrete evaluations. -/
def chain0 : ValueMatcher := defaultChain noValidator noValidator noValidator

/-! ## Claims: concrete-case and matcher-contract claims -/

/-- A matcher whose `Match` returns a `false` boolean with a nil error,
used to witness that the engine decides on the error alone. -/
def oddMatcher : ValueMatcher where
  CanMatch _ := true
  Match _ _ := (false, none)

/-- A decode function for `Sync` witnesses: only the text `"G"`
decodes (to null). -/
def parseW : String → Option J := fun s => if s == "G" then some .null else none

/-- A marshal callback for `Sync` witnesses: always succeeds. -/
def marshW : J → Option String := fun _ => some "out"

/-- C3: matching `{"id":"@number@","name":"@string@"}` against
`{"id":"x","name":5}` with the default chain yields exactly two errors
in the joined composite: a NotNumber failure at path `.id` and a
NotString failure at path `.name`, and nothing else.  The embedding
iterates object fields in their listed order, so the error list is
fully determined; the claim's "in either order" allowance is about Go's
random map iteration, and both required errors are present
simultaneously here.  The validators of the date/uuid/email matchers
are irrelevant and universally quantified. -/
theorem C3_multi_error_aggregation (dOk uOk eOk : String → Bool) :
    ((JSONMatcher.deepMatch (defaultChain dOk uOk eOk)
        (.obj [("id", .str "@number@"), ("name", .str "@string@")])
        (.obj [("id", .str "x"), ("name", .num 5)]) []).1.map
      fun r => (r.kind, pathToString r.path)) =
    [(.matcherFail .notNumber, ".id"), (.matcherFail .notString, ".name")] := rfl

/-- C4: a missing expected key whose expected value is a recognized
pattern is decided by querying that pattern's matcher with a nil value:
`{"a":"@empty@"}` against `{}` succeeds with no errors; `{"a":"@string@"}`
against `{}` fails with the string matcher's own NotString error (at
path `.a`, key `"a"`), not with `MissingKey`; and a missing key whose
expected value is not a recognized pattern (`{"a":1}` against `{}`)
yields exactly one `MissingKey` error. -/
theorem C4_missing_key_leniency (dOk uOk eOk : String → Bool) :
    (JSONMatcher.deepMatch (defaultChain dOk uOk eOk)
        (.obj [("a", .str "@empty@")]) (.obj []) []).1 = [] ∧
    ((JSONMatcher.deepMatch (defaultChain dOk uOk eOk)
        (.obj [("a", .str "@string@")]) (.obj []) []).1.map
      fun r => (r.kind, pathToString r.path, r.key)) =
      [(.matcherFail .notString, ".a", "a")] ∧
    ((JSONMatcher.deepMatch (defaultChain dOk uOk eOk)
        (.obj [("a", .num 1)]) (.obj []) []).1.map
      fun r => (r.kind, pathToString r.path, r.key)) =
      [(.missingKey, ".", "a")] :=
  ⟨rfl, rfl, rfl⟩

/-- C9: `matchValue` ignores the boolean a `ValueMatcher` returns and
decides solely on the error: for every matcher claiming the pattern,
the leaf comparison succeeds (no error records) exactly when the
returned error is nil — even when the returned boolean is false. -/
theorem C9_matchValue_decides_on_error (m : ValueMatcher) (p v : J) (path : List Seg)
    (hc : m.CanMatch p = true) :
    JSONMatcher.matchValue m p v path = [] ↔ (m.Match p v).2 = none := by
  simp only [JSONMatcher.matchValue, hc, if_true]
  cases h : (m.Match p v).2 <;> simp [h]

/-- Witness for C9 at a matcher returning `(false, nil)`: the leaf
comparison still succeeds, showing the boolean is ignored. -/
theorem C9_witness :
    oddMatcher.CanMatch (.str "p") = true ∧
      (JSONMatcher.matchValue oddMatcher (.str "p") .null [] = [] ↔
        (oddMatcher.Match (.str "p") .null).2 = none) :=
  ⟨rfl, C9_matchValue_decides_on_error oddMatcher (.str "p") .null [] rfl⟩

/-- C10: when the expected value is null and the actual value is
anything non-null (an object or array included), the Differ records
exactly one ValueMismatch at that path — never a TypeMismatch: the nil
expected value falls through the Go type switch to the scalar branch. -/
theorem C10_null_expected_is_value_mismatch (dOk uOk eOk : String → Bool)
    (a : J) (p : String) (h : a ≠ J.null) :
    JSONDiff.diffValues (defaultChain dOk uOk eOk) .null a p =
      [⟨p, .j .null, .j a, .valueMismatch⟩] := by
  have hc : (defaultChain dOk uOk eOk).CanMatch .null = false := by
    rw [defaultChain_CanMatch]; rfl
  have hv : JSONDiff.valuesEqual (defaultChain dOk uOk eOk) .null a = false := by
    simp only [JSONDiff.valuesEqual, hc, Bool.false_eq_true, if_false, decide_eq_false_iff_not]
    exact fun hh => h hh.symm
  simp [JSONDiff.diffValues, hv]

/-- Witness for C10 at expected null against the object `{"a":1}`. -/
theorem C10_witness :
    (J.obj [("a", J.num 1)] ≠ J.null) ∧
      JSONDiff.diffValues (defaultChain noValidator noValidator noValidator)
          .null (.obj [("a", .num 1)]) "x" =
        [⟨"x", .j .null, .j (.obj [("a", .num 1)]), .valueMismatch⟩] :=
  ⟨by decide, C10_null_expected_is_value_mismatch noValidator noValidator noValidator
    (.obj [("a", .num 1)]) "x" (by decide)⟩

/-- C5 (counterexample): the claim quantifies over every golden and
actual text; but `Sync` parses the golden text first, so when *both*
texts fail to decode (here: a decode function rejecting every text,
as happens for two unparsable JSON texts) it returns the *actual* text
with a nil error — not the golden text with a decode error as the
claim's first clause demands. -/
theorem C5_counterexample :
    ¬ (GoldenJSONSync.Sync (fun _ => none) marshW chain0 "G" "A" = ("G", some .invalidJSON) ∨
       (GoldenJSONSync.Sync (fun _ => none) marshW chain0 "G" "A").1 = "G") := by
  decide

/-- C5 as amended: *when the golden text decodes* and the actual text
fails to decode, `Sync` returns the original golden text unchanged
together with the non-nil decode error; and when the golden text fails
to decode, it returns the actual text unchanged with a nil error
(regardless of the actual text). -/
theorem C5_sync_decode_fallbacks (parse : String → Option J) (marshaler : J → Option String)
    (m : ValueMatcher) (gT aT : String) :
    (∀ g, parse gT = some g → parse aT = none →
      GoldenJSONSync.Sync parse marshaler m gT aT = (gT, some .invalidJSON)) ∧
    (parse gT = none → GoldenJSONSync.Sync parse marshaler m gT aT = (aT, none)) := by
  constructor
  · intro g h1 h2
    unfold GoldenJSONSync.Sync
    rw [h1, h2]
  · intro h
    unfold GoldenJSONSync.Sync
    rw [h]

/-- Witness for C5: a decode accepting only `"G"` exercises the
unparsable-actual fallback, and a decode accepting nothing exercises
the unparsable-golden fallback. -/
theorem C5_witness :
    GoldenJSONSync.Sync parseW marshW chain0 "G" "A" = ("G", some .invalidJSON) ∧
      GoldenJSONSync.Sync (fun _ => none) marshW chain0 "G" "A" = ("A", none) :=
  ⟨(C5_sync_decode_fallbacks parseW marshW chain0 "G" "A").1 .null (by decide) (by decide),
   (C5_sync_decode_fallbacks (fun _ => none) marshW chain0 "G" "A").2 rfl⟩

/-- C1 (counterexample): the structural matcher does not leave the
actual tree unchanged: matching `{"a":"@empty@"}` against `{}` inserts
the missing key `"a"` with a nil value into the actual map
(`actual[k] = nil` in `deepMatchMap`), so the actual object's key set
grows. -/
theorem C1_counterexample :
    (JSONMatcher.deepMatch chain0 (.obj [("a", .str "@empty@")]) (.obj []) []).2 ≠
      .obj [] := by
  decide

/-- C2 (counterexample): an expected array containing the unbounded
token does *not* always escape the length check: against an actual
array shorter than the prefix before the token, the element loop breaks
on the exhausted actual before ever reaching the token, so
`ArrayLengthNotEqual` is emitted at the array's path (here `[1,"@...@"]`
against `[]`). -/
theorem C2_counterexample :
    ((JSONMatcher.deepMatch chain0 (.arr [.num 1, .str "@...@"]) (.arr []) []).1.map
      fun r => (r.kind, r.path)) = [(.arraysLenNotEqual, ([] : List Seg))] := by
  decide

/-- C6 (counterexample): reconciliation is not idempotent for every
golden and actual tree: with golden `1` and actual `["@...@",5]` the
first reconcile adopts the actual array verbatim (type mismatch,
golden not a pattern), and the second reconcile then treats its leading
`"@...@"` element as the unbounded marker and truncates, yielding
`["@...@"]` instead. -/
theorem C6_counterexample :
    GoldenJSONSync.deepMatch chain0
        (GoldenJSONSync.deepMatch chain0 (.num 1) (.arr [.str "@...@", .num 5]))
        (.arr [.str "@...@", .num 5]) ≠
      GoldenJSONSync.deepMatch chain0 (.num 1) (.arr [.str "@...@", .num 5]) := by
  decide

/-! ## Unfolding equations for the matcher's `deepMatch` -/

theorem deepMatch_scalar (m : ValueMatcher) (e a : J) (p : List Seg)
    (h1 : typeOf e ≠ JType.tarr) (h2 : typeOf e ≠ JType.tobj) :
    JSONMatcher.deepMatch m e a p =
      if typeOf e ≠ typeOf a ∧ ¬ m.CanMatch e then
        ([⟨.typesNotEqual, p, e, a, ""⟩], a)
      else (JSONMatcher.matchValue m e a p, a) := by
  cases e <;>
    first
      | (cases a <;> (unfold JSONMatcher.deepMatch; rfl))
      | (exact absurd rfl h1)
      | (exact absurd rfl h2)

theorem deepMatch_arr_arr (m : ValueMatcher) (es as : List J) (p : List Seg) :
    JSONMatcher.deepMatch m (.arr es) (.arr as) p =
      (let r := JSONMatcher.deepMatchArray m es as p 0
       (if ¬ r.2.2 ∧ es.length ≠ as.length then
          r.1 ++ [⟨.arraysLenNotEqual, p, .arr es, .arr as, ""⟩]
        else r.1, .arr r.2.1)) := by
  unfold JSONMatcher.deepMatch
  rfl

theorem deepMatch_obj_obj (m : ValueMatcher) (fs gs : List (String × J)) (p : List Seg) :
    JSONMatcher.deepMatch m (.obj fs) (.obj gs) p =
      (let r := JSONMatcher.deepMatchMap m fs gs p
       (if r.2.2 then r.1 else r.1 ++ JSONMatcher.unexpectedKeyErrs fs r.2.1 p,
        .obj r.2.1)) := by
  unfold JSONMatcher.deepMatch
  rfl

theorem deepMatch_arr_other (m : ValueMatcher) (es : List J) (a : J) (p : List Seg)
    (h : typeOf a ≠ JType.tarr) :
    JSONMatcher.deepMatch m (.arr es) a p =
      if ¬ m.CanMatch (.arr es) then ([⟨.typesNotEqual, p, .arr es, a, ""⟩], a)
      else ([], a) := by
  cases a <;>
    first
      | ((unfold JSONMatcher.deepMatch
          by_cases hc : m.CanMatch (.arr es) = true <;> simp [hc, typeOf]); done)
      | (exact absurd rfl h)

theorem deepMatch_obj_other (m : ValueMatcher) (fs : List (String × J)) (a : J) (p : List Seg)
    (h : typeOf a ≠ JType.tobj) :
    JSONMatcher.deepMatch m (.obj fs) a p =
      if ¬ m.CanMatch (.obj fs) then ([⟨.typesNotEqual, p, .obj fs, a, ""⟩], a)
      else ([], a) := by
  cases a <;>
    first
      | ((unfold JSONMatcher.deepMatch
          by_cases hc : m.CanMatch (.obj fs) = true <;> simp [hc, typeOf]); done)
      | (exact absurd rfl h)

/-! ## Where the matcher's error records can point

Every record carries the absolute path of its creation site, so a
record produced inside an element call (at a strictly longer path) can
never sit at the enclosing array's own path. -/

theorem matchValue_path (m : ValueMatcher) (e a : J) (p : List Seg) :
    ∀ r ∈ JSONMatcher.matchValue m e a p, r.path = p := by
  intro r hr
  unfold JSONMatcher.matchValue at hr
  split at hr
  · split at hr <;> simp_all
  · split at hr <;> simp_all

theorem unexpectedKeyErrs_path (fs gs : List (String × J)) (p : List Seg) :
    ∀ r ∈ JSONMatcher.unexpectedKeyErrs fs gs p, r.path = p := by
  intro r hr
  unfold JSONMatcher.unexpectedKeyErrs at hr
  simp only [List.mem_map] at hr
  obtain ⟨kv, _, rfl⟩ := hr
  rfl

mutual

theorem dmPathLen (m : ValueMatcher) :
    ∀ e a p, ∀ r ∈ (JSONMatcher.deepMatch m e a p).1, p.length ≤ r.path.length
  | .null, a, p => by
      intro r hr
      rw [deepMatch_scalar m _ a p (by simp [typeOf]) (by simp [typeOf])] at hr
      split at hr
      · simp_all
      · rw [matchValue_path m _ a p r hr]
  | .bool b, a, p => by
      intro r hr
      rw [deepMatch_scalar m _ a p (by simp [typeOf]) (by simp [typeOf])] at hr
      split at hr
      · simp_all
      · rw [matchValue_path m _ a p r hr]
  | .num q, a, p => by
      intro r hr
      rw [deepMatch_scalar m _ a p (by simp [typeOf]) (by simp [typeOf])] at hr
      split at hr
      · simp_all
      · rw [matchValue_path m _ a p r hr]
  | .str s, a, p => by
      intro r hr
      rw [deepMatch_scalar m _ a p (by simp [typeOf]) (by simp [typeOf])] at hr
      split at hr
      · simp_all
      · rw [matchValue_path m _ a p r hr]
  | .arr es, a, p => by
      intro r hr
      by_cases ha : typeOf a = JType.tarr
      · obtain ⟨as, rfl⟩ : ∃ as, a = .arr as := by
          cases a <;> first | exact ⟨_, rfl⟩ | simp [typeOf] at ha
        rw [deepMatch_arr_arr] at hr
        simp only [] at hr
        split at hr
        · simp only [List.mem_append, List.mem_singleton] at hr
          rcases hr with hr | hr
          · exact Nat.le_of_lt (dmArrPathLen m es as p 0 r hr)
          · subst hr; exact Nat.le_refl _
        · exact Nat.le_of_lt (dmArrPathLen m es as p 0 r hr)
      · rw [deepMatch_arr_other m es a p ha] at hr
        split at hr <;> simp_all
  | .obj fs, a, p => by
      intro r hr
      by_cases ha : typeOf a = JType.tobj
      · obtain ⟨gs, rfl⟩ : ∃ gs, a = .obj gs := by
          cases a <;> first | exact ⟨_, rfl⟩ | simp [typeOf] at ha
        rw [deepMatch_obj_obj] at hr
        simp only [] at hr
        split at hr
        · exact dmMapPathLen m fs gs p r hr
        · simp only [List.mem_append] at hr
          rcases hr with hr | hr
          · exact dmMapPathLen m fs gs p r hr
          · rw [unexpectedKeyErrs_path fs _ p r hr]
      · rw [deepMatch_obj_other m fs a p ha] at hr
        split at hr <;> simp_all

theorem dmArrPathLen (m : ValueMatcher) :
    ∀ es as p i, ∀ r ∈ (JSONMatcher.deepMatchArray m es as p i).1,
      p.length < r.path.length
  | [], as, p, i => by
      intro r hr
      simp [JSONMatcher.deepMatchArray] at hr
  | v :: es, as, p, i => by
      intro r hr
      unfold JSONMatcher.deepMatchArray at hr
      split at hr
      · simp at hr
      · match as with
        | [] => simp at hr
        | a :: as2 =>
            simp only [List.mem_append] at hr
            rcases hr with hr | hr
            · have h1 := dmPathLen m v a (p ++ [.idx i]) r hr
              simp only [List.length_append, List.length_singleton] at h1
              omega
            · exact dmArrPathLen m es as2 p (i + 1) r hr

theorem dmMapPathLen (m : ValueMatcher) :
    ∀ fs act p, ∀ r ∈ (JSONMatcher.deepMatchMap m fs act p).1,
      p.length ≤ r.path.length
  | [], act, p => by
      intro r hr
      simp [JSONMatcher.deepMatchMap] at hr
  | (k, v1) :: fs, act, p => by
      intro r hr
      unfold JSONMatcher.deepMatchMap at hr
      split at hr
      · exact dmMapPathLen m fs act p r hr
      · split at hr
        · split at hr
          · split at hr
            · simp only [List.mem_cons] at hr
              rcases hr with hr | hr
              · subst hr; simp
              · exact dmMapPathLen m fs act p r hr
            · exact dmMapPathLen m fs _ p r hr
          · simp only [List.mem_cons] at hr
            rcases hr with hr | hr
            · subst hr; exact Nat.le_refl _
            · exact dmMapPathLen m fs act p r hr
        · simp only [List.mem_append] at hr
          rcases hr with hr | hr
          · have h1 := dmPathLen m v1 _ (p ++ [.key k]) r hr
            simp only [List.length_append, List.length_singleton] at h1
            omega
          · exact dmMapPathLen m fs _ p r hr

end

/-- When the actual array is at least as long as the expected prefix
preceding the unbounded token, the element loop reaches the token and
sets the unbounded flag. -/
theorem dmArr_unb_reached (m : ValueMatcher) :
    ∀ (pre : List J) (rest as : List J) (p : List Seg) (i : Nat),
      (∀ e ∈ pre, isUnbounded e = false) → pre.length ≤ as.length →
      (JSONMatcher.deepMatchArray m (pre ++ .str patternUnbounded :: rest) as p i).2.2 = true
  | [], rest, as, p, i, h1, h2 => by
      simp [JSONMatcher.deepMatchArray, isUnbounded, isPatternB]
  | v :: pre, rest, as, p, i, h1, h2 => by
      match as with
      | [] => simp at h2
      | a :: as2 =>
          unfold JSONMatcher.deepMatchArray
          rw [List.cons_append]
          simp only [h1 v (List.mem_cons_self v pre), Bool.false_eq_true, if_false]
          exact dmArr_unb_reached m pre rest as2 p (i + 1)
            (fun e he => h1 e (List.mem_cons_of_mem v he))
            (by simpa using Nat.le_of_succ_le_succ (by simpa using h2))

/-- C2 as amended: for every expected array whose unbounded token is
*reached* — the actual array is at least as long as the expected prefix
before the token — the structural matcher emits no ArrayLengthNotEqual
error at that array's path, whatever the actual length beyond the
prefix; an actual array shorter than the prefix does get the length
error (see the counterexample). -/
theorem C2_unbounded_reached_no_length_error (m : ValueMatcher)
    (pre rest as : List J) (p : List Seg)
    (h1 : ∀ e ∈ pre, isUnbounded e = false) (h2 : pre.length ≤ as.length) :
    ∀ r ∈ (JSONMatcher.deepMatch m (.arr (pre ++ .str patternUnbounded :: rest))
        (.arr as) p).1,
      ¬(r.kind = .arraysLenNotEqual ∧ r.path = p) := by
  intro r hr
  rw [deepMatch_arr_arr] at hr
  simp only [] at hr
  rw [dmArr_unb_reached m pre rest as p 0 h1 h2] at hr
  simp only [Bool.true_eq_false, false_and, if_false, not_true_eq_false,
    false_and, if_neg] at hr
  · rintro ⟨hk, hp⟩
    have := dmArrPathLen m _ as p 0 r hr
    rw [hp] at this
    exact Nat.lt_irrefl _ this

/-- Witness for C2 as amended: `[1,"@...@"]` against `[1,2]` (actual
longer than the prefix) gets no length error at the array's path. -/
theorem C2_witness :
    (∀ e ∈ [J.num 1], isUnbounded e = false) ∧
      ([J.num 1].length ≤ [J.num 1, J.num 2].length) ∧
      ∀ r ∈ (JSONMatcher.deepMatch chain0
          (.arr ([J.num 1] ++ .str patternUnbounded :: [])) (.arr [J.num 1, J.num 2]) []).1,
        ¬(r.kind = .arraysLenNotEqual ∧ r.path = []) :=
  ⟨by decide, by decide,
   C2_unbounded_reached_no_length_error chain0 [J.num 1] [] [J.num 1, J.num 2] []
     (by decide) (by decide)⟩

/-! ## Association-list facts for the map model -/

theorem mem_mapHas {gs : List (String × J)} {k : String} {v : J}
    (h : (k, v) ∈ gs) : mapHas gs k = true := by
  induction gs with
  | nil => simp at h
  | cons g gs ih =>
      obtain ⟨l, w⟩ := g
      rcases List.mem_cons.mp h with h | h
      · cases h
        simp [mapHas, mapGet]
      · by_cases hl : l = k <;> simp [mapHas, mapGet, hl] at ih ⊢
        exact ih h

theorem mapGet_nodup_mem {gs : List (String × J)} {k : String} {v : J}
    (hn : keysNodupB gs = true) (h : (k, v) ∈ gs) : mapGet gs k = some v := by
  induction gs with
  | nil => simp at h
  | cons g gs ih =>
      obtain ⟨l, w⟩ := g
      simp only [keysNodupB, Bool.and_eq_true, Bool.not_eq_true'] at hn
      rcases List.mem_cons.mp h with h | h
      · cases h
        simp [mapGet]
      · have hlk : l ≠ k := by
          intro he
          subst he
          rw [mem_mapHas h] at hn
          exact Bool.true_eq_false.mp hn.1
        simp only [mapGet, hlk, if_false]
        exact ih hn.2 h

theorem mapSet_self {gs : List (String × J)} {k : String} {v : J}
    (h : mapGet gs k = some v) : mapSet gs k v = gs := by
  induction gs with
  | nil => simp [mapGet] at h
  | cons g gs ih =>
      obtain ⟨l, w⟩ := g
      by_cases hl : l = k
      · subst hl
        have hw : w = v := by simpa [mapGet] using h
        subst hw
        simp [mapSet]
      · simp only [mapGet, hl, if_false] at h
        simp [mapSet, hl, ih h]

theorem unexpectedKeyErrs_self (fs : List (String × J)) (p : List Seg) :
    JSONMatcher.unexpectedKeyErrs fs fs p = [] := by
  unfold JSONMatcher.unexpectedKeyErrs
  rw [List.filter_eq_nil_iff.mpr, List.map_nil]
  intro kv hkv
  have : (kv.1, kv.2) ∈ fs := by simpa using hkv
  simp [mem_mapHas this]

/-! ## Reflexivity of the structural matcher on pattern-free trees -/

mutual

theorem dmReflTree (dOk uOk eOk : String → Bool) :
    ∀ T p, wfB T = true → noPatB T = true →
      JSONMatcher.deepMatch (defaultChain dOk uOk eOk) T T p = ([], T)
  | .null, p, hw, hn => by
      rw [deepMatch_scalar _ _ _ p (by simp [typeOf]) (by simp [typeOf])]
      simp [JSONMatcher.matchValue, defaultChain_CanMatch, defaultCanMatch]
  | .bool b, p, hw, hn => by
      rw [deepMatch_scalar _ _ _ p (by simp [typeOf]) (by simp [typeOf])]
      simp [JSONMatcher.matchValue, defaultChain_CanMatch, defaultCanMatch]
  | .num q, p, hw, hn => by
      rw [deepMatch_scalar _ _ _ p (by simp [typeOf]) (by simp [typeOf])]
      simp [JSONMatcher.matchValue, defaultChain_CanMatch, defaultCanMatch]
  | .str s, p, hw, hn => by
      rw [deepMatch_scalar _ _ _ p (by simp [typeOf]) (by simp [typeOf])]
      have hc : defaultCanMatch (.str s) = false := by
        simpa [noPatB] using hn
      simp [JSONMatcher.matchValue, defaultChain_CanMatch, hc]
  | .arr es, p, hw, hn => by
      obtain ⟨e1, e2⟩ := dmReflArr dOk uOk eOk es p 0
        (by simpa [wfB] using hw) (by simpa [noPatB] using hn)
      simp only [deepMatch_arr_arr]
      simp [e1, e2]
  | .obj fs, p, hw, hn => by
      simp only [wfB, Bool.and_eq_true] at hw
      obtain ⟨e1, e2⟩ := dmReflMap dOk uOk eOk fs fs p hw.1
        (fun kv hkv => hkv) hw.2 (by simpa [noPatB] using hn)
      simp only [deepMatch_obj_obj]
      simp [e1, e2, unexpectedKeyErrs_self]

theorem dmReflArr (dOk uOk eOk : String → Bool) :
    ∀ es p i, wfArrB es = true → noPatArrB es = true →
      (JSONMatcher.deepMatchArray (defaultChain dOk uOk eOk) es es p i).1 = [] ∧
      (JSONMatcher.deepMatchArray (defaultChain dOk uOk eOk) es es p i).2.1 = es
  | [], p, i, _, _ => by simp [JSONMatcher.deepMatchArray]
  | v :: es, p, i, hw, hn => by
      simp only [wfArrB, noPatArrB, Bool.and_eq_true] at hw hn
      unfold JSONMatcher.deepMatchArray
      by_cases hu : isUnbounded v = true
      · simp [hu]
      · have h1 := dmReflTree dOk uOk eOk v (p ++ [.idx i]) hw.1 hn.1
        obtain ⟨e1, e2⟩ := dmReflArr dOk uOk eOk es p (i + 1) hw.2 hn.2
        simp [hu, h1, e1, e2]

theorem dmReflMap (dOk uOk eOk : String → Bool) :
    ∀ fs gs p, keysNodupB gs = true → (∀ kv ∈ fs, kv ∈ gs) →
      wfObjB fs = true → noPatObjB fs = true →
      (JSONMatcher.deepMatchMap (defaultChain dOk uOk eOk) fs gs p).1 = [] ∧
      (JSONMatcher.deepMatchMap (defaultChain dOk uOk eOk) fs gs p).2.1 = gs
  | [], gs, p, _, _, _, _ => by simp [JSONMatcher.deepMatchMap]
  | (k, v) :: fs, gs, p, hnd, hsub, hwf, hnp => by
      simp only [wfObjB, noPatObjB, Bool.and_eq_true] at hwf hnp
      have hm : mapGet gs k = some v :=
        mapGet_nodup_mem hnd (hsub (k, v) (List.mem_cons_self _ _))
      unfold JSONMatcher.deepMatchMap
      by_cases hk : (k == patternUnbounded) = true
      · obtain ⟨e1, e2⟩ := dmReflMap dOk uOk eOk fs gs p hnd
          (fun kv hkv => hsub kv (List.mem_cons_of_mem _ hkv)) hwf.2 hnp.2
        simp [hk, e1, e2]
      · have h1 := dmReflTree dOk uOk eOk v (p ++ [.key k]) hwf.1 hnp.1
        obtain ⟨e1, e2⟩ := dmReflMap dOk uOk eOk fs gs p hnd
          (fun kv hkv => hsub kv (List.mem_cons_of_mem _ hkv)) hwf.2 hnp.2
        simp only [hk, Bool.false_eq_true, if_false, hm, h1, mapSet_self hm]
        simp [e1, e2]

end

/-- C7: matching is reflexive on pattern-free valid trees: for every
tree `T` with distinct object keys (which decoding valid JSON
guarantees) that contains no string leaf recognized by the default
chain as a pattern, matching `T` against itself with the structural
matcher succeeds with no errors, for any external validators. -/
theorem C7_reflexivity (dOk uOk eOk : String → Bool) (T : J) (p : List Seg)
    (hw : wfB T = true) (hn : noPatB T = true) :
    (JSONMatcher.deepMatch (defaultChain dOk uOk eOk) T T p).1 = [] := by
  rw [dmReflTree dOk uOk eOk T p hw hn]

/-- Witness for C7 on the tree `{"a":1,"b":["x",null],"c":{"d":true}}`. -/
theorem C7_witness :
    (wfB (J.obj [("a", .num 1), ("b", .arr [.str "x", .null]),
        ("c", .obj [("d", .bool true)])]) = true) ∧
      (noPatB (J.obj [("a", .num 1), ("b", .arr [.str "x", .null]),
        ("c", .obj [("d", .bool true)])]) = true) ∧
      (JSONMatcher.deepMatch chain0
        (J.obj [("a", .num 1), ("b", .arr [.str "x", .null]),
          ("c", .obj [("d", .bool true)])])
        (J.obj [("a", .num 1), ("b", .arr [.str "x", .null]),
          ("c", .obj [("d", .bool true)])]) []).1 = [] :=
  ⟨by decide, by decide,
   C7_reflexivity noValidator noValidator noValidator
     (J.obj [("a", .num 1), ("b", .arr [.str "x", .null]),
       ("c", .obj [("d", .bool true)])]) [] (by decide) (by decide)⟩

/-! ## Where the differ's records can point -/

theorem joinPath_len (base key : String) :
    base.length ≤ (JSONDiff.joinPath base key).length := by
  unfold JSONDiff.joinPath
  split
  · simp_all
  · simp only [String.length_append]
    omega

theorem unexpectedKeyDiffs_len (fs gs : List (String × J)) (p : String) :
    ∀ r ∈ JSONDiff.unexpectedKeyDiffs fs gs p, p.length ≤ r.Path.length := by
  intro r hr
  unfold JSONDiff.unexpectedKeyDiffs at hr
  simp only [List.mem_map] at hr
  obtain ⟨kv, _, rfl⟩ := hr
  exact joinPath_len p kv.1

mutual

theorem diffPathLen (m : ValueMatcher) :
    ∀ e a q, ∀ r ∈ JSONDiff.diffValues m e a q, q.length ≤ r.Path.length
  | .obj fs, a, q => by
      intro r hr
      unfold JSONDiff.diffValues at hr
      match a with
      | .obj gs =>
          simp only [List.mem_append] at hr
          rcases hr with hr | hr
          · exact diffObjPathLen m fs gs q r hr
          · exact unexpectedKeyDiffs_len fs gs q r hr
      | .null | .bool _ | .num _ | .str _ | .arr _ => simp_all
  | .arr es, a, q => by
      intro r hr
      unfold JSONDiff.diffValues at hr
      match a with
      | .arr as =>
          simp only [List.mem_append] at hr
          rcases hr with hr | hr
          · split at hr <;> simp_all
          · exact Nat.le_of_lt (diffArrPathLen m es as q 0 r hr)
      | .null | .bool _ | .num _ | .str _ | .obj _ => simp_all
  | .null, a, q => by
      intro r hr
      unfold JSONDiff.diffValues at hr
      split at hr <;> simp_all
  | .bool b, a, q => by
      intro r hr
      unfold JSONDiff.diffValues at hr
      split at hr <;> simp_all
  | .num n, a, q => by
      intro r hr
      unfold JSONDiff.diffValues at hr
      split at hr <;> simp_all
  | .str s, a, q => by
      intro r hr
      unfold JSONDiff.diffValues at hr
      split at hr <;> simp_all

theorem diffObjPathLen (m : ValueMatcher) :
    ∀ fs gs q, ∀ r ∈ JSONDiff.diffObjExp m fs gs q, q.length ≤ r.Path.length
  | [], gs, q => by intro r hr; simp [JSONDiff.diffObjExp] at hr
  | (k, ev) :: fs, gs, q => by
      intro r hr
      unfold JSONDiff.diffObjExp at hr
      simp only [List.mem_append] at hr
      rcases hr with hr | hr
      · split at hr
        · simp_all [joinPath_len q k]
        · exact Nat.le_trans (joinPath_len q k) (diffPathLen m ev _ (JSONDiff.joinPath q k) r hr)
      · exact diffObjPathLen m fs gs q r hr

theorem diffArrPathLen (m : ValueMatcher) :
    ∀ es as q i, ∀ r ∈ JSONDiff.diffArrPairs m es as q i, q.length < r.Path.length
  | e :: es, a :: as, q, i => by
      intro r hr
      unfold JSONDiff.diffArrPairs at hr
      simp only [List.mem_append] at hr
      rcases hr with hr | hr
      · have h1 := diffPathLen m e a (q ++ "[" ++ toString i ++ "]") r hr
        simp only [String.length_append] at h1
        have hb : "[".length = 1 := rfl
        omega
      · exact diffArrPathLen m es as q (i + 1) r hr
  | [], _, q, i => by intro r hr; simp [JSONDiff.diffArrPairs] at hr
  | _ :: _, [], q, i => by intro r hr; simp [JSONDiff.diffArrPairs] at hr

end

theorem diffValues_arr_arr (m : ValueMatcher) (es as : List J) (p : String) :
    JSONDiff.diffValues m (.arr es) (.arr as) p =
      (if es.length ≠ as.length then
        [⟨p, .int es.length, .int as.length, .arrayLengthMismatch⟩]
      else []) ++ JSONDiff.diffArrPairs m es as p 0 := by
  unfold JSONDiff.diffValues
  rfl

/-- Each aligned pair of the overlapping prefix contributes its whole
record list to the index loop of `diffArrays`. -/
theorem diffArrPairs_sub (m : ValueMatcher) :
    ∀ (es as : List J) (p : String) (i0 j : Nat) (h1 : j < es.length) (h2 : j < as.length),
      JSONDiff.diffValues m (es.get ⟨j, h1⟩) (as.get ⟨j, h2⟩)
          (p ++ "[" ++ toString (i0 + j) ++ "]") ⊆
        JSONDiff.diffArrPairs m es as p i0
  | e :: es, a :: as, p, i0, 0, h1, h2 => by
      intro r hr
      unfold JSONDiff.diffArrPairs
      simp only [List.mem_append]
      exact Or.inl (by simpa using hr)
  | e :: es, a :: as, p, i0, j + 1, h1, h2 => by
      intro r hr
      unfold JSONDiff.diffArrPairs
      simp only [List.mem_append]
      refine Or.inr (diffArrPairs_sub m es as p (i0 + 1) j
        (by simpa using Nat.lt_of_succ_lt_succ h1)
        (by simpa using Nat.lt_of_succ_lt_succ h2) ?_)
      have : i0 + (j + 1) = i0 + 1 + j := by omega
      simpa [this] using hr

/-- C8: for every pair of arrays of different lengths the Differ
appends exactly one ArrayLengthMismatch record at that array's own
path — with no exemption for the unbounded `"@...@"` marker, since the
quantification covers every expected array — and still recurses
element-wise into the overlapping prefix, every aligned pair's records
appearing in the result. -/
theorem C8_differ_array_length (m : ValueMatcher) (es as : List J) (p : String)
    (h : es.length ≠ as.length) :
    ((JSONDiff.diffValues m (.arr es) (.arr as) p).countP
        (fun r => decide (r.dtype = DiffType.arrayLengthMismatch ∧ r.Path = p))) = 1 ∧
    ∀ j (h1 : j < es.length) (h2 : j < as.length),
      JSONDiff.diffValues m (es.get ⟨j, h1⟩) (as.get ⟨j, h2⟩)
          (p ++ "[" ++ toString j ++ "]") ⊆
        JSONDiff.diffValues m (.arr es) (.arr as) p := by
  constructor
  · rw [diffValues_arr_arr, if_pos h, List.countP_append]
    have hid : (List.countP
        (fun r => decide (r.dtype = DiffType.arrayLengthMismatch ∧ r.Path = p))
        [(⟨p, .int es.length, .int as.length, .arrayLengthMismatch⟩ : DiffResult)]) = 1 := by
      simp [List.countP_cons]
    rw [hid]
    have hz : (List.countP
        (fun r => decide (r.dtype = DiffType.arrayLengthMismatch ∧ r.Path = p))
        (JSONDiff.diffArrPairs m es as p 0)) = 0 := by
      rw [List.countP_eq_zero]
      intro r hr
      have hlt := diffArrPathLen m es as p 0 r hr
      simp only [decide_eq_true_eq, not_and]
      intro _ hp
      rw [hp] at hlt
      exact absurd hlt (Nat.lt_irrefl _)
    rw [hz]
  · intro j h1 h2
    intro r hr
    rw [diffValues_arr_arr]
    simp only [List.mem_append]
    exact Or.inr (diffArrPairs_sub m es as p 0 j h1 h2 (by simpa using hr))

/-- Witness for C8 at expected `["@...@"]` (the unbounded marker gets
no exemption) against actual `[1,2]`: one length record at the array's
path, and the first pair's records included. -/
theorem C8_witness :
    ([J.str "@...@"].length ≠ [J.num 1, J.num 2].length) ∧
      ((JSONDiff.diffValues chain0 (.arr [J.str "@...@"]) (.arr [J.num 1, J.num 2]) "").countP
        (fun r => decide (r.dtype = DiffType.arrayLengthMismatch ∧ r.Path = ""))) = 1 ∧
      JSONDiff.diffValues chain0 ([J.str "@...@"].get ⟨0, by decide⟩)
          ([J.num 1, J.num 2].get ⟨0, by decide⟩) ("" ++ "[" ++ toString 0 ++ "]") ⊆
        JSONDiff.diffValues chain0 (.arr [J.str "@...@"]) (.arr [J.num 1, J.num 2]) "" :=
  ⟨by decide,
   (C8_differ_array_length chain0 [J.str "@...@"] [J.num 1, J.num 2] "" (by decide)).1,
   (C8_differ_array_length chain0 [J.str "@...@"] [J.num 1, J.num 2] "" (by decide)).2
     0 (by decide) (by decide)⟩

/-! ## The structural matcher mutates the actual tree only by inserting
null fields: the `onlyNullIns` invariant -/

theorem jeq_refl (a : J) : jeq a a = true := (jeq_iff a a).mpr rfl

mutual
theorem oniRefl : ∀ a : J, onlyNullIns a a = true
  | .null => rfl
  | .bool b => by simp [onlyNullIns, jeq]
  | .num q => by simp [onlyNullIns, jeq]
  | .str s => by simp [onlyNullIns, jeq]
  | .arr xs => by simpa [onlyNullIns] using oniArrRefl xs
  | .obj fs => by simpa [onlyNullIns] using oniObjRefl fs
theorem oniArrRefl : ∀ xs : List J, onlyNullInsArr xs xs = true
  | [] => rfl
  | x :: xs => by simp [onlyNullInsArr, oniRefl x, oniArrRefl xs]
theorem oniObjRefl : ∀ fs : List (String × J), onlyNullInsObj fs fs = true
  | [] => rfl
  | (k, v) :: fs => by simp [onlyNullInsObj, oniRefl v, oniObjRefl fs]
end

theorem oni_null_eq {w : J} (h : onlyNullIns .null w = true) : w = .null := by
  cases w <;> first | rfl | simp [onlyNullIns, jeq] at h

theorem oniObjNilTrans :
    ∀ gs hs : List (String × J),
      gs.all (fun kv => jeq kv.2 .null) = true → onlyNullInsObj gs hs = true →
      hs.all (fun kv => jeq kv.2 .null) = true
  | [], hs, _, h2 => by simpa [onlyNullInsObj] using h2
  | (l, w) :: gs, hs, h1, h2 => by
      simp only [List.all_cons, Bool.and_eq_true] at h1
      have hw : w = .null := (jeq_iff w .null).mp h1.1
      subst hw
      match hs with
      | [] => rfl
      | (l2, w2) :: hs =>
          simp only [onlyNullInsObj, Bool.and_eq_true] at h2
          have hw2 : w2 = .null := oni_null_eq h2.1.2
          subst hw2
          simp only [List.all_cons, Bool.and_eq_true]
          exact ⟨jeq_refl _, oniObjNilTrans gs hs h1.2 h2.2⟩

mutual
theorem oniTrans : ∀ a b c : J,
    onlyNullIns a b = true → onlyNullIns b c = true → onlyNullIns a c = true
  | .arr xs, b, c, hab, hbc => by
      match b with
      | .arr ys =>
          match c with
          | .arr zs =>
              simp only [onlyNullIns] at hab hbc ⊢
              exact oniArrTrans xs ys zs hab hbc
          | .null | .bool _ | .num _ | .str _ | .obj _ =>
              simp [onlyNullIns, jeq] at hbc
      | .null | .bool _ | .num _ | .str _ | .obj _ =>
          simp [onlyNullIns, jeq] at hab
  | .obj fs, b, c, hab, hbc => by
      match b with
      | .obj gs =>
          match c with
          | .obj hs =>
              simp only [onlyNullIns] at hab hbc ⊢
              exact oniObjTrans fs gs hs hab hbc
          | .null | .bool _ | .num _ | .str _ | .arr _ =>
              simp [onlyNullIns, jeq] at hbc
      | .null | .bool _ | .num _ | .str _ | .arr _ =>
          simp [onlyNullIns, jeq] at hab
  | .null, b, c, hab, hbc => by
      have : J.null = b := (jeq_iff _ _).mp (by cases b <;> simpa [onlyNullIns] using hab)
      subst this
      exact hbc
  | .bool x, b, c, hab, hbc => by
      have : J.bool x = b := (jeq_iff _ _).mp (by cases b <;> simpa [onlyNullIns] using hab)
      subst this
      exact hbc
  | .num x, b, c, hab, hbc => by
      have : J.num x = b := (jeq_iff _ _).mp (by cases b <;> simpa [onlyNullIns] using hab)
      subst this
      exact hbc
  | .str x, b, c, hab, hbc => by
      have : J.str x = b := (jeq_iff _ _).mp (by cases b <;> simpa [onlyNullIns] using hab)
      subst this
      exact hbc
theorem oniArrTrans : ∀ xs ys zs : List J,
    onlyNullInsArr xs ys = true → onlyNullInsArr ys zs = true →
    onlyNullInsArr xs zs = true
  | [], ys, zs, hab, hbc => by
      match ys with
      | [] => exact hbc
      | _ :: _ => simp [onlyNullInsArr] at hab
  | x :: xs, ys, zs, hab, hbc => by
      match ys with
      | [] => simp [onlyNullInsArr] at hab
      | y :: ys =>
          match zs with
          | [] => simp [onlyNullInsArr] at hbc
          | z :: zs =>
              simp only [onlyNullInsArr, Bool.and_eq_true] at hab hbc ⊢
              exact ⟨oniTrans x y z hab.1 hbc.1, oniArrTrans xs ys zs hab.2 hbc.2⟩
theorem oniObjTrans : ∀ fs gs hs : List (String × J),
    onlyNullInsObj fs gs = true → onlyNullInsObj gs hs = true →
    onlyNullInsObj fs hs = true
  | [], gs, hs, hab, hbc => by
      simp only [onlyNullInsObj] at hab ⊢
      exact oniObjNilTrans gs hs hab hbc
  | (k, v) :: fs, gs, hs, hab, hbc => by
      match gs with
      | [] => simp [onlyNullInsObj] at hab
      | (l, w) :: gs =>
          match hs with
          | [] => simp [onlyNullInsObj] at hbc
          | (l2, w2) :: hs =>
              simp only [onlyNullInsObj, Bool.and_eq_true] at hab hbc ⊢
              obtain ⟨⟨hk1, hv1⟩, hr1⟩ := hab
              obtain ⟨⟨hk2, hv2⟩, hr2⟩ := hbc
              refine ⟨⟨?_, oniTrans v w w2 hv1 hv2⟩, oniObjTrans fs gs hs hr1 hr2⟩
              have e1 : k = l := by simpa using hk1
              have e2 : l = l2 := by simpa using hk2
              simp [e1.trans e2]
end

/-- Updating a present key with a value related to the old one keeps
the object related to the original. -/
theorem oniObj_mapSet :
    ∀ (act : List (String × J)) (k : String) {v2 v2' : J},
      mapGet act k = some v2 → onlyNullIns v2 v2' = true →
      onlyNullInsObj act (mapSet act k v2') = true
  | [], k, v2, v2', hm, _ => by simp [mapGet] at hm
  | (l, w) :: act, k, v2, v2', hm, ho => by
      by_cases hl : l = k
      · subst hl
        have hw : w = v2 := by simpa [mapGet] using hm
        subst hw
        simp [mapSet, onlyNullInsObj, ho, oniObjRefl act]
      · simp only [mapGet, hl, if_false] at hm
        simp [mapSet, hl, onlyNullInsObj, oniRefl w,
          oniObj_mapSet act k hm ho]

/-- Appending a null-valued field keeps the object related to the
original. -/
theorem oniObj_appendNull :
    ∀ (act : List (String × J)) (k : String),
      onlyNullInsObj act (act ++ [(k, .null)]) = true
  | [], k => by simp [onlyNullInsObj, jeq]
  | (l, w) :: act, k => by
      simp [onlyNullInsObj, oniRefl w, oniObj_appendNull act k]

/-- An absent key's assignment appends the entry. -/
theorem mapSet_absent :
    ∀ (act : List (String × J)) (k : String) (v : J),
      mapGet act k = none → mapSet act k v = act ++ [(k, v)]
  | [], k, v, _ => rfl
  | (l, w) :: act, k, v, hm => by
      by_cases hl : l = k
      · subst hl; simp [mapGet] at hm
      · simp only [mapGet, hl, if_false] at hm
        simp [mapSet, hl, mapSet_absent act k v hm]

mutual

theorem oniMain (m : ValueMatcher) :
    ∀ e a p, onlyNullIns a (JSONMatcher.deepMatch m e a p).2 = true
  | .null, a, p => by
      rw [deepMatch_scalar m _ a p (by simp [typeOf]) (by simp [typeOf])]
      split <;> exact oniRefl a
  | .bool b, a, p => by
      rw [deepMatch_scalar m _ a p (by simp [typeOf]) (by simp [typeOf])]
      split <;> exact oniRefl a
  | .num q, a, p => by
      rw [deepMatch_scalar m _ a p (by simp [typeOf]) (by simp [typeOf])]
      split <;> exact oniRefl a
  | .str s, a, p => by
      rw [deepMatch_scalar m _ a p (by simp [typeOf]) (by simp [typeOf])]
      split <;> exact oniRefl a
  | .arr es, a, p => by
      by_cases ha : typeOf a = JType.tarr
      · obtain ⟨as, rfl⟩ : ∃ as, a = .arr as := by
          cases a <;> first | exact ⟨_, rfl⟩ | simp [typeOf] at ha
        rw [deepMatch_arr_arr]
        simpa [onlyNullIns] using oniMainArr m es as p 0
      · rw [deepMatch_arr_other m es a p ha]
        split <;> exact oniRefl a
  | .obj fs, a, p => by
      by_cases ha : typeOf a = JType.tobj
      · obtain ⟨gs, rfl⟩ : ∃ gs, a = .obj gs := by
          cases a <;> first | exact ⟨_, rfl⟩ | simp [typeOf] at ha
        rw [deepMatch_obj_obj]
        simpa [onlyNullIns] using oniMainMap m fs gs p
      · rw [deepMatch_obj_other m fs a p ha]
        split <;> exact oniRefl a

theorem oniMainArr (m : ValueMatcher) :
    ∀ es as p i, onlyNullInsArr as (JSONMatcher.deepMatchArray m es as p i).2.1 = true
  | [], as, p, i => by
      simpa [JSONMatcher.deepMatchArray] using oniArrRefl as
  | v :: es, as, p, i => by
      unfold JSONMatcher.deepMatchArray
      by_cases hu : isUnbounded v = true
      · simpa [hu] using oniArrRefl as
      · match as with
        | [] => simp [hu, onlyNullInsArr]
        | a :: as2 =>
            simp only [hu, Bool.false_eq_true, if_false]
            simp only [onlyNullInsArr, Bool.and_eq_true]
            exact ⟨oniMain m v a (p ++ [.idx i]), oniMainArr m es as2 p (i + 1)⟩

theorem oniMainMap (m : ValueMatcher) :
    ∀ fs act p, onlyNullInsObj act (JSONMatcher.deepMatchMap m fs act p).2.1 = true
  | [], act, p => by
      simpa [JSONMatcher.deepMatchMap] using oniObjRefl act
  | (k, v1) :: fs, act, p => by
      unfold JSONMatcher.deepMatchMap
      by_cases hk : (k == patternUnbounded) = true
      · simpa [hk] using oniMainMap m fs act p
      · simp only [hk, Bool.false_eq_true, if_false]
        cases hm : mapGet act k with
        | none =>
            by_cases hc : m.CanMatch v1 = true
            · simp only [hc, if_true]
              cases he : (m.Match v1 .null).2 with
              | some e => simpa using oniMainMap m fs act p
              | none =>
                  simp only []
                  rw [mapSet_absent act k .null hm] at *
                  exact oniObjTrans _ _ _ (oniObj_appendNull act k)
                    (oniMainMap m fs (act ++ [(k, .null)]) p)
            · simp only [hc, Bool.false_eq_true, if_false]
              simpa using oniMainMap m fs act p
        | some v2 =>
            simp only []
            exact oniObjTrans _ _ _
              (oniObj_mapSet act k hm (oniMain m v1 v2 (p ++ [.key k])))
              (oniMainMap m fs (mapSet act k ((JSONMatcher.deepMatch m v1 v2 (p ++ [.key k])).2)) p)

end

/-- C1 as amended: the only way any traversal can change an input tree
is the structural matcher's `actual[k] = nil` assignment: the actual
tree returned by `deepMatch` is the input actual tree with, at most,
null-valued fields appended to objects whose expected counterpart had a
pattern key missing from them — no tag of an existing node changes and
the expected tree is never written to (the Reconciler, a pure function
of its inputs here, builds a fresh tree).  Stated for every matcher,
expected tree, actual tree and path. -/
theorem C1_matcher_only_inserts_nulls (m : ValueMatcher) (e a : J) (p : List Seg) :
    onlyNullIns a (JSONMatcher.deepMatch m e a p).2 = true :=
  oniMain m e a p

/-! ## Unfolding equations for the reconciler's `deepMatch` -/

theorem syncDM_scalar (m : ValueMatcher) (g a : J)
    (h1 : typeOf g ≠ JType.tarr) (h2 : typeOf g ≠ JType.tobj) :
    GoldenJSONSync.deepMatch m g a =
      if typeOf g ≠ typeOf a ∧ ¬ m.CanMatch g then a
      else GoldenJSONSync.matchValue m g a := by
  cases g <;>
    first
      | (cases a <;> (unfold GoldenJSONSync.deepMatch; rfl))
      | (exact absurd rfl h1)
      | (exact absurd rfl h2)

theorem syncDM_arr_arr (m : ValueMatcher) (gs as : List J) :
    GoldenJSONSync.deepMatch m (.arr gs) (.arr as) =
      .arr (GoldenJSONSync.deepMatchArray m gs as) := by
  unfold GoldenJSONSync.deepMatch
  rfl

theorem syncDM_obj_obj (m : ValueMatcher) (fs gs : List (String × J)) :
    GoldenJSONSync.deepMatch m (.obj fs) (.obj gs) =
      (let r := GoldenJSONSync.deepMatchMap m fs gs
       .obj (if r.2 then r.1 else r.1 ++ gs.filter fun kv => ¬ mapHas fs kv.1)) := by
  unfold GoldenJSONSync.deepMatch
  rfl

theorem syncDM_arr_other (m : ValueMatcher) (gs : List J) (a : J)
    (h : typeOf a ≠ JType.tarr) :
    GoldenJSONSync.deepMatch m (.arr gs) a = a := by
  cases a <;>
    first
      | ((unfold GoldenJSONSync.deepMatch
          by_cases hc : m.CanMatch (.arr gs) = true <;> simp [hc, typeOf]); done)
      | (exact absurd rfl h)

theorem syncDM_obj_other (m : ValueMatcher) (fs : List (String × J)) (a : J)
    (h : typeOf a ≠ JType.tobj) :
    GoldenJSONSync.deepMatch m (.obj fs) a = a := by
  cases a <;>
    first
      | ((unfold GoldenJSONSync.deepMatch
          by_cases hc : m.CanMatch (.obj fs) = true <;> simp [hc, typeOf]); done)
      | (exact absurd rfl h)

/-! ## Membership facts for well-formed, token-free objects -/

theorem mapGet_mem : ∀ {gs : List (String × J)} {k : String} {v : J},
    mapGet gs k = some v → (k, v) ∈ gs := by
  intro gs
  induction gs with
  | nil => intro k v h; simp [mapGet] at h
  | cons g gs ih =>
      intro k v h
      obtain ⟨l, w⟩ := g
      by_cases hl : l = k
      · subst hl
        have : w = v := by simpa [mapGet] using h
        subst this
        exact List.mem_cons_self _ _
      · simp only [mapGet, hl, if_false] at h
        exact List.mem_cons_of_mem _ (ih h)

theorem wfObj_mem {gs : List (String × J)} {k : String} {v : J}
    (hw : wfObjB gs = true) (h : (k, v) ∈ gs) : wfB v = true := by
  induction gs with
  | nil => simp at h
  | cons g gs ih =>
      obtain ⟨l, w⟩ := g
      simp only [wfObjB, Bool.and_eq_true] at hw
      rcases List.mem_cons.mp h with h | h
      · cases h; exact hw.1
      · exact ih hw.2 h

theorem noUnbObj_mem {gs : List (String × J)} {k : String} {v : J}
    (hu : noUnbObjB gs = true) (h : (k, v) ∈ gs) : noUnbB v = true := by
  induction gs with
  | nil => simp at h
  | cons g gs ih =>
      obtain ⟨l, w⟩ := g
      simp only [noUnbObjB, Bool.and_eq_true] at hu
      rcases List.mem_cons.mp h with h | h
      · cases h; exact hu.1.2
      · exact ih hu.2 h

theorem noUnbObj_key_mem {gs : List (String × J)} {k : String} {v : J}
    (hu : noUnbObjB gs = true) (h : (k, v) ∈ gs) :
    (k == patternUnbounded) = false := by
  induction gs with
  | nil => simp at h
  | cons g gs ih =>
      obtain ⟨l, w⟩ := g
      simp only [noUnbObjB, Bool.and_eq_true, Bool.not_eq_true'] at hu
      rcases List.mem_cons.mp h with h | h
      · cases h; exact hu.1.1
      · exact ih hu.2 h

theorem notUnb_of_noUnbB {a : J} (h : noUnbB a = true) : isUnbounded a = false := by
  cases a <;> simp_all [noUnbB, isUnbounded, isPatternB]

theorem mapHas_cons_of {fs : List (String × J)} {k : String} (l : String) (w : J)
    (h : mapHas fs k = true) : mapHas ((l, w) :: fs) k = true := by
  by_cases hl : l = k <;> simp [mapHas, mapGet, hl] at h ⊢
  exact h

theorem mapHas_append_or {xs ys : List (String × J)} {k : String} :
    mapHas (xs ++ ys) k = (mapHas xs k || mapHas ys k) := by
  induction xs with
  | nil => simp [mapHas, mapGet]
  | cons x xs ih =>
      obtain ⟨l, w⟩ := x
      by_cases hl : l = k <;> simp [mapHas, mapGet, hl] at ih ⊢
      exact ih

theorem filterNotHas {fs gs : List (String × J)}
    (hsub : ∀ kv ∈ gs, mapHas fs kv.1 = true) :
    (gs.filter fun kv => ¬ mapHas fs kv.1) = [] := by
  rw [List.filter_eq_nil_iff]
  intro kv hkv
  simp [hsub kv hkv]

/-! ## Reconciling a token-free valid tree with itself is the identity -/

mutual

theorem syncRefl (m : ValueMatcher) :
    ∀ a, wfB a = true → noUnbB a = true → GoldenJSONSync.deepMatch m a a = a
  | .null, _, _ => by
      rw [syncDM_scalar m _ _ (by simp [typeOf]) (by simp [typeOf])]
      simp [GoldenJSONSync.matchValue]
  | .bool b, _, _ => by
      rw [syncDM_scalar m _ _ (by simp [typeOf]) (by simp [typeOf])]
      simp [GoldenJSONSync.matchValue]
  | .num q, _, _ => by
      rw [syncDM_scalar m _ _ (by simp [typeOf]) (by simp [typeOf])]
      simp [GoldenJSONSync.matchValue]
  | .str s, _, _ => by
      rw [syncDM_scalar m _ _ (by simp [typeOf]) (by simp [typeOf])]
      simp [GoldenJSONSync.matchValue]
  | .arr as, hw, hn => by
      rw [syncDM_arr_arr,
        syncReflArr m as (by simpa [wfB] using hw) (by simpa [noUnbB] using hn)]
  | .obj gs, hw, hn => by
      simp only [wfB, Bool.and_eq_true] at hw
      rw [syncDM_obj_obj]
      have h := syncReflMapGo m gs gs hw.1 hw.2 (by simpa [noUnbB] using hn)
        (fun kv hkv => hkv)
      simp only [h]
      simp
      intro a b hab
      exact mem_mapHas hab

theorem syncReflArr (m : ValueMatcher) :
    ∀ as, wfArrB as = true → noUnbArrB as = true →
      GoldenJSONSync.deepMatchArray m as as = as
  | [], _, _ => rfl
  | a :: as, hw, hn => by
      simp only [wfArrB, noUnbArrB, Bool.and_eq_true] at hw hn
      unfold GoldenJSONSync.deepMatchArray
      rw [notUnb_of_noUnbB hn.1]
      simp only [Bool.false_eq_true, if_false]
      rw [syncRefl m a hw.1 hn.1, syncReflArr m as hw.2 hn.2]

theorem syncReflMapGo (m : ValueMatcher) :
    ∀ xs gs, keysNodupB gs = true → wfObjB gs = true → noUnbObjB gs = true →
      (∀ kv ∈ xs, kv ∈ gs) →
      GoldenJSONSync.deepMatchMap m xs gs = (xs, false)
  | [], gs, _, _, _, _ => rfl
  | (k, v) :: xs, gs, hnd, hw, hu, hsub => by
      have hmem : (k, v) ∈ gs := hsub (k, v) (List.mem_cons_self _ _)
      have hk := noUnbObj_key_mem hu hmem
      have hm : mapGet gs k = some v := mapGet_nodup_mem hnd hmem
      unfold GoldenJSONSync.deepMatchMap
      rw [hk]
      simp only [Bool.false_eq_true, if_false, hm]
      rw [syncRefl m v (wfObj_mem hw hmem) (noUnbObj_mem hu hmem),
        syncReflMapGo m xs gs hnd hw hu
          (fun kv hkv => hsub kv (List.mem_cons_of_mem _ hkv))]

end

/-- The merged value is the unbounded token only if one of the inputs
is: the reconciler returns the golden value, the actual value, or a
freshly built array/object. -/
theorem syncUnb (m : ValueMatcher) (g a : J)
    (hg : isUnbounded g = false) (ha : isUnbounded a = false) :
    isUnbounded (GoldenJSONSync.deepMatch m g a) = false := by
  cases g with
  | arr gs =>
      by_cases ht : typeOf a = JType.tarr
      · obtain ⟨as, rfl⟩ : ∃ as, a = .arr as := by
          cases a <;> first | exact ⟨_, rfl⟩ | simp [typeOf] at ht
        rw [syncDM_arr_arr]
        rfl
      · rw [syncDM_arr_other m gs a ht]
        exact ha
  | obj fs =>
      by_cases ht : typeOf a = JType.tobj
      · obtain ⟨gs, rfl⟩ : ∃ gs, a = .obj gs := by
          cases a <;> first | exact ⟨_, rfl⟩ | simp [typeOf] at ht
        rw [syncDM_obj_obj]
        rfl
      · rw [syncDM_obj_other m fs a ht]
        exact ha
  | null =>
      rw [syncDM_scalar m _ a (by simp [typeOf]) (by simp [typeOf])]
      unfold GoldenJSONSync.matchValue
      split
      · exact ha
      · split
        · exact hg
        · exact ha
  | bool b =>
      rw [syncDM_scalar m _ a (by simp [typeOf]) (by simp [typeOf])]
      unfold GoldenJSONSync.matchValue
      split
      · exact ha
      · split
        · exact hg
        · exact ha
  | num q =>
      rw [syncDM_scalar m _ a (by simp [typeOf]) (by simp [typeOf])]
      unfold GoldenJSONSync.matchValue
      split
      · exact ha
      · split
        · exact hg
        · exact ha
  | str s =>
      rw [syncDM_scalar m _ a (by simp [typeOf]) (by simp [typeOf])]
      unfold GoldenJSONSync.matchValue
      split
      · exact ha
      · split
        · exact hg
        · exact ha

/-- Unfolding equation for the golden-keys loop at a cons cell. -/
theorem syncMapGo_cons (m : ValueMatcher) (k : String) (v : J)
    (fs gs : List (String × J)) :
    GoldenJSONSync.deepMatchMap m ((k, v) :: fs) gs =
      if k == patternUnbounded then
        ((k, .null) :: (GoldenJSONSync.deepMatchMap m fs gs).1, true)
      else
        match mapGet gs k with
        | some av =>
            ((k, GoldenJSONSync.deepMatch m v av) ::
              (GoldenJSONSync.deepMatchMap m fs gs).1,
             (GoldenJSONSync.deepMatchMap m fs gs).2)
        | none => GoldenJSONSync.deepMatchMap m fs gs := rfl

/-- The golden-keys loop processes a concatenation entrywise. -/
theorem syncMapGo_append (m : ValueMatcher) :
    ∀ xs ys gs,
      GoldenJSONSync.deepMatchMap m (xs ++ ys) gs =
        ((GoldenJSONSync.deepMatchMap m xs gs).1 ++ (GoldenJSONSync.deepMatchMap m ys gs).1,
         (GoldenJSONSync.deepMatchMap m xs gs).2 || (GoldenJSONSync.deepMatchMap m ys gs).2)
  | [], ys, gs => by simp [GoldenJSONSync.deepMatchMap]
  | (k, v) :: xs, ys, gs => by
      have ih := syncMapGo_append m xs ys gs
      simp only [List.cons_append, syncMapGo_cons, ih]
      by_cases hk : (k == patternUnbounded) = true
      · simp [hk]
      · simp only [hk, Bool.false_eq_true, if_false]
        cases hm : mapGet gs k with
        | some av => simp [Bool.or_assoc]
        | none => simp

/-- A non-token key present in both golden and actual survives into the
golden-keys loop's result. -/
theorem syncMapGo_has (m : ValueMatcher) :
    ∀ fs gs k, (k == patternUnbounded) = false →
      mapHas fs k = true → mapHas gs k = true →
      mapHas (GoldenJSONSync.deepMatchMap m fs gs).1 k = true
  | [], gs, k, _, hf, _ => by simp [mapHas, mapGet] at hf
  | (l, w) :: fs, gs, k, hk, hf, hg => by
      unfold GoldenJSONSync.deepMatchMap
      by_cases hl : l = k
      · subst hl
        rw [hk]
        simp only [Bool.false_eq_true, if_false]
        obtain ⟨av, hav⟩ : ∃ av, mapGet gs l = some av := by
          cases hmg : mapGet gs l with
          | none => rw [mapHas, hmg] at hg; simp at hg
          | some av => exact ⟨av, rfl⟩
        rw [hav]
        simp [mapHas, mapGet]
      · have hf2 : mapHas fs k = true := by
          simpa [mapHas, mapGet, hl] using hf
        by_cases hlk : (l == patternUnbounded) = true
        · simp only [hlk, if_true]
          exact mapHas_cons_of l .null (syncMapGo_has m fs gs k hk hf2 hg)
        · simp only [hlk, Bool.false_eq_true, if_false]
          cases hmg : mapGet gs l with
          | some av =>
              simp only []
              exact mapHas_cons_of l _ (syncMapGo_has m fs gs k hk hf2 hg)
          | none => exact syncMapGo_has m fs gs k hk hf2 hg

/-- Unfolding equation for the reconciler's element loop at a cons. -/
theorem syncArr_cons (m : ValueMatcher) (g : J) (gsL as : List J) :
    GoldenJSONSync.deepMatchArray m (g :: gsL) as =
      if isUnbounded g then [g]
      else
        match as with
        | [] => []
        | a :: as2 =>
            GoldenJSONSync.deepMatch m g a ::
              GoldenJSONSync.deepMatchArray m gsL as2 := rfl

/-- Idempotence at a scalar golden value: the merge keeps a recognized
pattern leaf (and keeping it again is stable), or adopts the actual
value (and re-merging a token-free valid actual with itself is the
identity). -/
theorem syncIdemScalar (m : ValueMatcher) (g a : J)
    (h1 : typeOf g ≠ JType.tarr) (h2 : typeOf g ≠ JType.tobj)
    (hw : wfB a = true) (hn : noUnbB a = true) :
    GoldenJSONSync.deepMatch m (GoldenJSONSync.deepMatch m g a) a =
      GoldenJSONSync.deepMatch m g a := by
  rw [syncDM_scalar m g a h1 h2]
  split
  · exact syncRefl m a hw hn
  · rename_i hguard
    unfold GoldenJSONSync.matchValue
    split
    · rename_i hcm
      rw [syncDM_scalar m g a h1 h2, if_neg hguard]
      unfold GoldenJSONSync.matchValue
      rw [if_pos hcm]
    · exact syncRefl m a hw hn

mutual

theorem syncIdem (m : ValueMatcher) :
    ∀ g a, wfB a = true → noUnbB a = true →
      GoldenJSONSync.deepMatch m (GoldenJSONSync.deepMatch m g a) a =
        GoldenJSONSync.deepMatch m g a
  | .null, a, hw, hn =>
      syncIdemScalar m _ a (by simp [typeOf]) (by simp [typeOf]) hw hn
  | .bool b, a, hw, hn =>
      syncIdemScalar m _ a (by simp [typeOf]) (by simp [typeOf]) hw hn
  | .num q, a, hw, hn =>
      syncIdemScalar m _ a (by simp [typeOf]) (by simp [typeOf]) hw hn
  | .str s, a, hw, hn =>
      syncIdemScalar m _ a (by simp [typeOf]) (by simp [typeOf]) hw hn
  | .arr gsL, a, hw, hn => by
      by_cases ht : typeOf a = JType.tarr
      · obtain ⟨as, rfl⟩ : ∃ as, a = .arr as := by
          cases a <;> first | exact ⟨_, rfl⟩ | simp [typeOf] at ht
        rw [syncDM_arr_arr, syncDM_arr_arr,
          syncIdemArr m gsL as (by simpa [wfB] using hw) (by simpa [noUnbB] using hn)]
      · rw [syncDM_arr_other m gsL a ht]
        exact syncRefl m a hw hn
  | .obj fs, a, hw, hn => by
      by_cases ht : typeOf a = JType.tobj
      · obtain ⟨gs, rfl⟩ : ∃ gs, a = .obj gs := by
          cases a <;> first | exact ⟨_, rfl⟩ | simp [typeOf] at ht
        have hw2 : keysNodupB gs = true ∧ wfObjB gs = true := by simpa [wfB] using hw
        have hn2 : noUnbObjB gs = true := by simpa [noUnbB] using hn
        have hP := syncIdemMapGo m fs gs hw2.1 hw2.2 hn2
        rw [syncDM_obj_obj]
        simp only []
        by_cases hu : (GoldenJSONSync.deepMatchMap m fs gs).2 = true
        · rw [if_pos hu, syncDM_obj_obj]
          simp only [hP, hu, if_pos]
        · rw [if_neg hu, syncDM_obj_obj]
          simp only [syncMapGo_append, hP]
          have hex := syncReflMapGo m (gs.filter fun kv => ¬ mapHas fs kv.1) gs
            hw2.1 hw2.2 hn2 (fun kv hkv => (List.mem_filter.mp hkv).1)
          simp only [hex]
          have huf : (GoldenJSONSync.deepMatchMap m fs gs).2 = false := by
            simpa using hu
          simp only [huf, Bool.or_false, Bool.false_eq_true, if_false]
          have hfil : (gs.filter fun kv =>
              ¬ mapHas ((GoldenJSONSync.deepMatchMap m fs gs).1 ++
                gs.filter fun kv2 => ¬ mapHas fs kv2.1) kv.1) = [] := by
            apply filterNotHas
            intro kv hkv
            rw [mapHas_append_or]
            by_cases hhf : mapHas fs kv.1 = true
            · have hkey : (kv.1 == patternUnbounded) = false :=
                noUnbObj_key_mem hn2 (show (kv.1, kv.2) ∈ gs by simpa using hkv)
              rw [syncMapGo_has m fs gs kv.1 hkey hhf
                (mem_mapHas (show (kv.1, kv.2) ∈ gs by simpa using hkv))]
              rfl
            · have hmem2 : (kv.1, kv.2) ∈ gs.filter (fun kv2 => ¬ mapHas fs kv2.1) := by
                apply List.mem_filter.mpr
                exact ⟨by simpa using hkv, by simp [hhf]⟩
              rw [mem_mapHas hmem2]
              simp
          rw [hfil, List.append_nil]
      · rw [syncDM_obj_other m fs a ht]
        exact syncRefl m a hw hn

theorem syncIdemArr (m : ValueMatcher) :
    ∀ gsL as, wfArrB as = true → noUnbArrB as = true →
      GoldenJSONSync.deepMatchArray m (GoldenJSONSync.deepMatchArray m gsL as) as =
        GoldenJSONSync.deepMatchArray m gsL as
  | [], as, hw, hn => by
      show GoldenJSONSync.deepMatchArray m as as = as
      exact syncReflArr m as hw hn
  | g :: gsL, as, hw, hn => by
      by_cases hg : isUnbounded g = true
      · have h1 : GoldenJSONSync.deepMatchArray m (g :: gsL) as = [g] := by
          rw [syncArr_cons, if_pos hg]
        rw [h1, syncArr_cons, if_pos hg]
      · match as with
        | [] =>
            have h1 : GoldenJSONSync.deepMatchArray m (g :: gsL) [] = [] := by
              rw [syncArr_cons, if_neg hg]
            rw [h1]
            rfl
        | a :: as2 =>
            simp only [wfArrB, noUnbArrB, Bool.and_eq_true] at hw hn
            have hga : isUnbounded (GoldenJSONSync.deepMatch m g a) = false :=
              syncUnb m g a (by simpa using hg) (notUnb_of_noUnbB hn.1)
            have h1 : GoldenJSONSync.deepMatchArray m (g :: gsL) (a :: as2) =
                GoldenJSONSync.deepMatch m g a ::
                  GoldenJSONSync.deepMatchArray m gsL as2 := by
              rw [syncArr_cons, if_neg hg]
            rw [h1]
            have h2 : GoldenJSONSync.deepMatchArray m
                (GoldenJSONSync.deepMatch m g a ::
                  GoldenJSONSync.deepMatchArray m gsL as2) (a :: as2) =
                GoldenJSONSync.deepMatch m (GoldenJSONSync.deepMatch m g a) a ::
                  GoldenJSONSync.deepMatchArray m
                    (GoldenJSONSync.deepMatchArray m gsL as2) as2 := by
              rw [syncArr_cons, if_neg (by simp [hga])]
            rw [h2, syncIdem m g a hw.1 hn.1, syncIdemArr m gsL as2 hw.2 hn.2]

theorem syncIdemMapGo (m : ValueMatcher) :
    ∀ fs gs, keysNodupB gs = true → wfObjB gs = true → noUnbObjB gs = true →
      GoldenJSONSync.deepMatchMap m (GoldenJSONSync.deepMatchMap m fs gs).1 gs =
        GoldenJSONSync.deepMatchMap m fs gs
  | [], gs, _, _, _ => rfl
  | (k, v1) :: fs, gs, hnd, hw, hn => by
      have ih := syncIdemMapGo m fs gs hnd hw hn
      rw [syncMapGo_cons]
      by_cases hk : (k == patternUnbounded) = true
      · rw [if_pos hk]
        simp only []
        rw [syncMapGo_cons, if_pos hk]
        simp [ih]
      · rw [if_neg hk]
        cases hm : mapGet gs k with
        | none => exact ih
        | some av =>
            simp only []
            rw [syncMapGo_cons, if_neg hk, hm]
            simp only []
            rw [syncIdem m v1 av (wfObj_mem hw (mapGet_mem hm))
              (noUnbObj_mem hn (mapGet_mem hm))]
            simp [ih]

end

/-- C6 as amended: reconciliation is idempotent for a fixed actual tree
that is a valid decoded JSON tree (distinct object keys) containing no
occurrence of the unbounded token `"@...@"` as a string leaf or object
key: for every matcher, every golden tree `G` and every such actual
tree `A`, `reconcile(reconcile(G,A),A) = reconcile(G,A)`.  (Without the
token-freedom condition the counterexample applies: the token adopted
from the actual tree acts as a truncating marker on the second pass.) -/
theorem C6_reconcile_idempotent (m : ValueMatcher) (G A : J)
    (hw : wfB A = true) (hn : noUnbB A = true) :
    GoldenJSONSync.deepMatch m (GoldenJSONSync.deepMatch m G A) A =
      GoldenJSONSync.deepMatch m G A :=
  syncIdem m G A hw hn

/-- Witness for C6 at golden `{"v":"@string@"}` and actual
`{"v":"hello","n":2}`. -/
theorem C6_witness :
    (wfB (J.obj [("v", .str "hello"), ("n", .num 2)]) = true) ∧
      (noUnbB (J.obj [("v", .str "hello"), ("n", .num 2)]) = true) ∧
      GoldenJSONSync.deepMatch chain0
          (GoldenJSONSync.deepMatch chain0 (J.obj [("v", .str "@string@")])
            (J.obj [("v", .str "hello"), ("n", .num 2)]))
          (J.obj [("v", .str "hello"), ("n", .num 2)]) =
        GoldenJSONSync.deepMatch chain0 (J.obj [("v", .str "@string@")])
          (J.obj [("v", .str "hello"), ("n", .num 2)]) :=
  ⟨by decide, by decide,
   C6_reconcile_idempotent chain0 (J.obj [("v", .str "@string@")])
     (J.obj [("v", .str "hello"), ("n", .num 2)]) (by decide) (by decide)⟩
